import Mathlib

/-!
Verification of the commit-graph layout engine and incremental cache of
a git branch-visualisation extension.

The development shallowly embeds two source files:
* `services/git-service.ts` — log parsing (`parseGitLogToCommitMap`),
  commit-count eviction (`enforceCommitLimit`), merge-relationship
  inference and DAG assembly (`buildBranchGraphFromCommitMap`), the full
  and incremental rebuild paths (`buildFullBranchGraph`,
  `buildBranchGraphIncrementally`, `tryBuildIncrementalBranchGraph`) and
  the orchestrating `getBranchGraph`.
* the Git Graph view component — the path/branch assignment engine
  (`getAvailableColour`, `determinePath`, the outer scan and the
  completion sweep of `buildGraphData`).

JavaScript `Map`s are modelled as association lists in insertion order
(`Map.set` updates in place or appends; key iteration is insertion
order).  JavaScript `Set`s of strings are modelled as duplicate-free
lists in insertion order.  `number` timestamps are modelled as
`Option Int`, `none` standing for `NaN`.  Async collaborator calls
(`git.raw`, `git.branch`, …) are modelled as `Except Unit` valued
oracle fields; a `.error` value stands for a rejected promise.
-/

namespace GitSvc

/-- Association-list model of a JavaScript `Map<string, α>`:
entries in insertion order, keys unique by construction. -/
abbrev JsMap (α : Type) := List (String × α)

/-- `Map.get`: value of the first entry with the given key. -/
def mapGet {α : Type} (m : JsMap α) (k : String) : Option α :=
  (m.find? (fun e => e.1 = k)).map Prod.snd

/-- `Map.has`. -/
def mapHas {α : Type} (m : JsMap α) (k : String) : Bool :=
  m.any (fun e => e.1 = k)

/-- `Map.set`: update the entry in place if the key is present,
otherwise append a new entry. -/
def mapSet {α : Type} (m : JsMap α) (k : String) (v : α) : JsMap α :=
  if mapHas m k then m.map (fun e => if e.1 = k then (k, v) else e)
  else m ++ [(k, v)]

/-- `new Set(list)` for strings: keep the first occurrence of each
element, in insertion order. -/
def jsSetList : List String → List String
  | [] => []
  | x :: xs => x :: (jsSetList xs).filter (fun y => y ≠ x)

/-! JavaScript string primitives, over `String.data` so every
definition evaluates by kernel reduction. -/

/-- `String.prototype.trim()`. -/
def jsTrim (s : String) : String :=
  ⟨((s.data.dropWhile Char.isWhitespace).reverse.dropWhile Char.isWhitespace).reverse⟩

/-- Auxiliary splitter: split at every character satisfying `p`,
keeping (possibly empty) pieces — `String.prototype.split(c)` for a
single-character separator when `p` tests that character. -/
def splitPredAux (p : Char → Bool) : List Char → List Char → List String
  | [], acc => [⟨acc.reverse⟩]
  | c :: cs, acc =>
    if p c then (⟨acc.reverse⟩ : String) :: splitPredAux p cs []
    else splitPredAux p cs (c :: acc)

def splitPred (p : Char → Bool) (s : String) : List String :=
  splitPredAux p s.data []

/-- `String.prototype.split(sep)` for a one-character separator. -/
def splitOnChar (sep : Char) (s : String) : List String :=
  splitPred (fun c => c = sep) s

/-- `String.prototype.startsWith(pre)`. -/
def jsStartsWith (pre s : String) : Bool :=
  pre.data.isPrefixOf s.data

/-- `String.prototype.slice(n)` / dropping a known prefix length. -/
def jsDrop (n : Nat) (s : String) : String :=
  ⟨s.data.drop n⟩

/-- JavaScript `parseInt(s, 10)` restricted to the shapes the parser can
meet: an optional minus sign followed by a longest digit prefix;
`none` stands for `NaN`. -/
def parseIntJS (s : String) : Option Int :=
  let (sign, rest) : Int × List Char :=
    match s.data with
    | c :: cs => if c = Char.ofNat 45 then (-1, cs) else (1, s.data)
    | [] => (1, [])
  let digits := rest.takeWhile Char.isDigit
  if digits.isEmpty then none
  else some (sign * (Int.ofNat (digits.foldl (fun n c => n * 10 + (c.toNat - 48)) 0)))

/-- `CommitNodeInfo` of git-service.ts.  `branches` models the
`Set<string>` as a duplicate-free list in insertion order;
`timestamp` is `none` for `NaN`. -/
structure CommitNodeInfo where
  hash : String
  parents : List String
  timestamp : Option Int
  branches : List String
deriving DecidableEq, Repr

/-- A `merges` entry of `BranchGraphData` (`from`/`to` renamed to
`fromBranch`/`toBranch`; `from` is reserved in Lean). -/
structure MergeEdge where
  fromBranch : String
  toBranch : String
  commit : String
  mtype : String
  description : String
  timestamp : Option Int
deriving DecidableEq, Repr

structure DagNode where
  hash : String
  parents : List String
  branches : List String
  timestamp : Option Int
  isMerge : Bool
deriving DecidableEq, Repr

structure DagLink where
  source : String
  target : String
deriving DecidableEq, Repr

structure BranchGraphDag where
  nodes : List DagNode
  links : List DagLink
deriving DecidableEq, Repr

structure BranchGraphData where
  branches : List String
  merges : List MergeEdge
  currentBranch : Option String
  dag : Option BranchGraphDag
deriving DecidableEq, Repr

/-- Result of `git.branch()` (`simple-git` `BranchSummary`), restricted
to the fields the graph builder reads. An empty `current` models the
falsy branch of `branchSummary.current || …`. -/
structure BranchSummary where
  all : List String
  current : String
deriving DecidableEq, Repr

/-- `GitService.BRANCH_GRAPH_MAX_COMMITS`. -/
def BRANCH_GRAPH_MAX_COMMITS : Nat := 800

/-- The lines actually iterated by `parseGitLogToCommitMap`:
`logOutput.trim().split('\n').filter(line => line.trim())`.
(The `!logOutput || !logOutput.trim()` early return yields the same
empty list.) -/
def logLines (logOutput : String) : List String :=
  (splitOnChar (Char.ofNat 10) (jsTrim logOutput)).filter (fun l => jsTrim l ≠ "")

/-- The body of the per-line loop of `parseGitLogToCommitMap`: `none`
when the line is dropped (fewer than 4 NUL-separated fields, or empty
hash), otherwise the key/record pair passed to `commits.set`.
`now` is the value `Date.now()` would return. -/
def parseRecord (now : Int) (line : String) : Option (String × CommitNodeInfo) :=
  let parts := splitOnChar (Char.ofNat 0) line
  if parts.length < 4 then none
  else
    let hash := jsTrim (parts.getD 0 "")
    if hash = "" then none
    else
      let parentStr := jsTrim (parts.getD 1 "")
      let refStr := jsTrim (parts.getD 2 "")
      let timestampStr := jsTrim (parts.getD 3 "")
      let parents :=
        if parentStr ≠ "" then
          (splitPred Char.isWhitespace parentStr).filter (fun p => jsTrim p ≠ "")
        else []
      let refs :=
        if refStr ≠ "" then
          ((splitOnChar (Char.ofNat 44) refStr).map jsTrim).filter (fun r => r ≠ "")
        else []
      let branchNames :=
        (refs.filter (fun r => jsStartsWith "refs/heads/" r)).map
          (fun r => jsDrop 11 r)
      let timestamp :=
        if timestampStr ≠ "" then (parseIntJS timestampStr).map (fun t => t * 1000)
        else some now
      some (hash, ⟨hash, parents, timestamp, jsSetList branchNames⟩)

/-- What a retained parser entry looks like in terms of its source
line: at least 4 NUL-separated fields; the key is the trimmed non-empty
hash field; `parents` are the non-empty whitespace-separated tokens of
field 1; `branches` are the `refs/heads/`-prefixed refs of field 2 with
the prefix stripped; the timestamp field (unix seconds) is scaled to
milliseconds, an absent timestamp falling back to `now`. -/
def ParsedLineSpec (now : Int) (line : String) (h : String) (n : CommitNodeInfo) : Prop :=
  let parts := splitOnChar (Char.ofNat 0) line
  4 ≤ parts.length ∧
  h = jsTrim (parts.getD 0 "") ∧ h ≠ "" ∧ n.hash = h ∧
  n.parents =
    (splitPred Char.isWhitespace (jsTrim (parts.getD 1 ""))).filter (fun p => jsTrim p ≠ "") ∧
  (∀ p ∈ n.parents, p ≠ "") ∧
  n.branches = jsSetList
    (((((splitOnChar (Char.ofNat 44) (jsTrim (parts.getD 2 ""))).map jsTrim).filter
        (fun r => r ≠ "")).filter
      (fun r => jsStartsWith "refs/heads/" r)).map (fun r => jsDrop 11 r)) ∧
  (jsTrim (parts.getD 3 "") ≠ "" →
    n.timestamp = (parseIntJS (jsTrim (parts.getD 3 ""))).map (fun t => t * 1000)) ∧
  (jsTrim (parts.getD 3 "") = "" → n.timestamp = some now)

/-- The key a raw line contributes to the commit map, when retained. -/
def lineKey (now : Int) (line : String) : Option String :=
  (parseRecord now line).map Prod.fst

/-- Fold of `commits.set` over a list of raw lines. -/
def parseLines (now : Int) (lines : List String) : JsMap CommitNodeInfo :=
  lines.foldl
    (fun m line =>
      match parseRecord now line with
      | none => m
      | some (h, n) => mapSet m h n)
    []

/-- `parseGitLogToCommitMap`. -/
def parseGitLogToCommitMap (now : Int) (logOutput : String) : JsMap CommitNodeInfo :=
  parseLines now (logLines logOutput)

/-- The `while` loop of `enforceCommitLimit`, with an explicit
structural bound (the loop deletes one entry per iteration, so it runs
at most `m.length` times). -/
def enforceLoop (limit : Nat) : Nat → JsMap CommitNodeInfo → JsMap CommitNodeInfo
  | 0, m => m
  | n + 1, m => if m.length ≤ limit then m else enforceLoop limit n m.dropLast

/-- `enforceCommitLimit` with the limit as a parameter: while the map
holds more than `limit` entries, delete the entry whose key comes last
in iteration (= insertion) order.  On a unique-keyed association list
deleting the last key is dropping the last entry. -/
def enforceCommitLimitWith (limit : Nat) (m : JsMap CommitNodeInfo) : JsMap CommitNodeInfo :=
  enforceLoop limit m.length m

/-- `enforceCommitLimit` as in the source, limit fixed to
`BRANCH_GRAPH_MAX_COMMITS`. -/
def enforceCommitLimit (m : JsMap CommitNodeInfo) : JsMap CommitNodeInfo :=
  enforceCommitLimitWith BRANCH_GRAPH_MAX_COMMITS m

/-- `toBranchCandidates` of the merge-inference loop:
`Array.from(commitBranches).filter(b => firstParent.has(b) && !secondParent.has(b))`. -/
def toCandidates (commitNode firstParentNode secondParentNode : CommitNodeInfo) : List String :=
  commitNode.branches.filter
    (fun b => firstParentNode.branches.contains b &&
      !(secondParentNode.branches.contains b))

/-- `fromBranchCandidates` of the merge-inference loop. -/
def fromCandidates (commitNode firstParentNode secondParentNode : CommitNodeInfo) : List String :=
  secondParentNode.branches.filter
    (fun b =>
      if firstParentNode.branches.contains b then
        commitNode.branches.contains b &&
          !((toCandidates commitNode firstParentNode secondParentNode).contains b)
      else true)

/-- The merge edge a single loop iteration would push, before the
duplicate-`(from,to)` check: `none` when the vertex is skipped. -/
def mergeCandidate (commits : JsMap CommitNodeInfo) (currentBranch : String)
    (e : String × CommitNodeInfo) : Option MergeEdge :=
  let commitHash := e.1
  let commitNode := e.2
  if commitNode.parents.length ≥ 2 then
    match mapGet commits (commitNode.parents.getD 0 ""),
          mapGet commits (commitNode.parents.getD 1 "") with
    | some firstParentNode, some secondParentNode =>
      let toCands := toCandidates commitNode firstParentNode secondParentNode
      let fromCands := fromCandidates commitNode firstParentNode secondParentNode
      if toCands.length > 0 ∧ fromCands.length > 0 then
        let toBranch := if toCands.contains currentBranch then currentBranch else toCands.headD ""
        let fromBranch := fromCands.headD ""
        if fromBranch ≠ toBranch then
          some ⟨fromBranch, toBranch, commitHash, "three-way",
            s!"三路合并：{fromBranch} → {toBranch}", commitNode.timestamp⟩
        else none
      else none
    | _, _ => none
  else none

/-- One iteration of the merge-inference loop over `commits.entries()`,
including the `findIndex`-based duplicate-pair check. -/
def mergeStep (commits : JsMap CommitNodeInfo) (currentBranch : String)
    (merges : List MergeEdge) (e : String × CommitNodeInfo) : List MergeEdge :=
  match mergeCandidate commits currentBranch e with
  | none => merges
  | some edge =>
    if merges.any (fun m => m.fromBranch = edge.fromBranch ∧ m.toBranch = edge.toBranch) then
      merges
    else merges ++ [edge]

/-- The merge-inference loop of `buildBranchGraphFromCommitMap`. -/
def inferMerges (commits : JsMap CommitNodeInfo) (currentBranch : String) : List MergeEdge :=
  commits.foldl (mergeStep commits currentBranch) []

/-- The loop appending recorded `MergeHistory` items (only `three-way`
items whose branch names are both local, deduplicated by `(from,to)`). -/
def appendRecordedMerges (allBranches : List String) (merges : List MergeEdge)
    (recorded : List MergeEdge) : List MergeEdge :=
  recorded.foldl
    (fun acc item =>
      if item.mtype ≠ "three-way" then acc
      else if ¬ (allBranches.contains item.fromBranch ∧ allBranches.contains item.toBranch) then acc
      else if acc.any (fun m => m.fromBranch = item.fromBranch ∧ m.toBranch = item.toBranch) then acc
      else acc ++ [item])
    merges

/-- The serialized DAG node of one commit-map entry. -/
def dagNodeOf (e : String × CommitNodeInfo) : DagNode :=
  { hash := e.2.hash, parents := e.2.parents, branches := e.2.branches,
    timestamp := e.2.timestamp, isMerge := e.2.parents.length ≥ 2 }

/-- The parent→child links of one commit-map entry (the key is the
link target). -/
def dagLinksOf (e : String × CommitNodeInfo) : List DagLink :=
  e.2.parents.map (fun parent => { source := parent, target := e.1 })

/-- `buildBranchGraphFromCommitMap`.  `recorded` is the list
`MergeHistory.getHistory()` returns (`[]` when that call throws — the
source wraps it in try/catch). -/
def buildBranchGraphFromCommitMap (commits : JsMap CommitNodeInfo)
    (branchSummary : BranchSummary) (recorded : List MergeEdge) : BranchGraphData :=
  let allBranches := branchSummary.all.filter (fun b => !(jsStartsWith "remotes/" b))
  let currentBranch := if branchSummary.current ≠ "" then branchSummary.current else "main"
  let merges := inferMerges commits currentBranch
  let merges := appendRecordedMerges allBranches merges recorded
  let threeWayMerges := merges.filter (fun m => m.mtype = "three-way")
  let dagNodes := commits.map dagNodeOf
  let dagLinks := commits.flatMap dagLinksOf
  { branches := allBranches, merges := threeWayMerges,
    currentBranch := some currentBranch,
    dag := some { nodes := dagNodes, links := dagLinks } }

/-- The snapshot the `catch` of `buildFullBranchGraph` returns. -/
def emptyBranchGraph : BranchGraphData :=
  { branches := [], merges := [], currentBranch := none,
    dag := some { nodes := [], links := [] } }

/-- `buildFullBranchGraph`.  The `git log --all …` output and the
`git.branch()` summary are oracle values; a `.error` models the
corresponding await throwing, which the surrounding try/catch turns
into the empty snapshot. -/
def buildFullBranchGraph (logResult : Except Unit String)
    (branchResult : Except Unit BranchSummary) (now : Int)
    (recorded : List MergeEdge) : BranchGraphData :=
  match logResult with
  | .error _ => emptyBranchGraph
  | .ok logOutput =>
    let commits := parseGitLogToCommitMap now logOutput
    let commits := enforceCommitLimit commits
    match branchResult with
    | .error _ => emptyBranchGraph
    | .ok branchSummary =>
      if commits.length = 0 then
        { branches := branchSummary.all.filter (fun b => !(jsStartsWith "remotes/" b)),
          merges := [],
          currentBranch := if branchSummary.current ≠ "" then some branchSummary.current else none,
          dag := some { nodes := [], links := [] } }
      else buildBranchGraphFromCommitMap commits branchSummary recorded

/-- The merge step of `buildBranchGraphIncrementally`: a cached
snapshot node is added to the combined map unless a freshly fetched
commit already claimed its hash (new entries win on collision);
`branches` goes back through `new Set(node.branches || [])`. -/
def nodeToInfo (node : DagNode) : CommitNodeInfo :=
  ⟨node.hash, node.parents, node.timestamp, jsSetList node.branches⟩

def addBaseNode (m : JsMap CommitNodeInfo) (node : DagNode) : JsMap CommitNodeInfo :=
  if mapHas m node.hash then m
  else mapSet m node.hash (nodeToInfo node)

/-- `buildBranchGraphIncrementally`.  Only the range `git log` await is
inside a try/catch (failure → `null`); the `git.branch()` await is not,
so its failure propagates (`.error`).  Result `.ok none` is the
source's `null`. -/
def buildBranchGraphIncrementally (baseGraph : BranchGraphData)
    (rangeLogResult : Except Unit String) (branchResult : Except Unit BranchSummary)
    (now : Int) (recorded : List MergeEdge) :
    Except Unit (Option BranchGraphData) :=
  match baseGraph.dag with
  | none => .ok none
  | some baseDag =>
    match rangeLogResult with
    | .error _ => .ok none
    | .ok logOutput =>
      match branchResult with
      | .error e => .error e
      | .ok branchSummary =>
        let newCommits := parseGitLogToCommitMap now logOutput
        let combined := baseDag.nodes.foldl addBaseNode newCommits
        if combined.length = 0 then
          .ok (some { baseGraph with
            branches := branchSummary.all.filter (fun b => !(jsStartsWith "remotes/" b)),
            currentBranch :=
              if branchSummary.current ≠ "" then some branchSummary.current
              else baseGraph.currentBranch })
        else
          .ok (some (buildBranchGraphFromCommitMap (enforceCommitLimit combined)
            branchSummary recorded))

/-- One step of keeping only the first occurrence per `(from,to)` pair
(the shape of the source's `findIndex` duplicate check). -/
def keepFirstStep (acc : List MergeEdge) (edge : MergeEdge) : List MergeEdge :=
  if acc.any (fun m => m.fromBranch = edge.fromBranch ∧ m.toBranch = edge.toBranch) then acc
  else acc ++ [edge]

/-- Keep only the first occurrence of each `(from,to)` pair. -/
def keepFirstByPair (l : List MergeEdge) : List MergeEdge :=
  l.foldl keepFirstStep []

/-- Written from the specification sentence (claim side, for
comparison with the source's `fromCandidates`): the from-candidates
are the names in parent 2's set not already claimed as "to". -/
def fromCandidatesClaimed (commitNode firstParentNode secondParentNode : CommitNodeInfo) :
    List String :=
  secondParentNode.branches.filter
    (fun b => !((toCandidates commitNode firstParentNode secondParentNode).contains b))

/-- The per-vertex merge candidate with the claim-side from-candidate
rule substituted (everything else as in the source). -/
def mergeCandidateClaimed (commits : JsMap CommitNodeInfo) (currentBranch : String)
    (e : String × CommitNodeInfo) : Option MergeEdge :=
  let commitHash := e.1
  let commitNode := e.2
  if commitNode.parents.length ≥ 2 then
    match mapGet commits (commitNode.parents.getD 0 ""),
          mapGet commits (commitNode.parents.getD 1 "") with
    | some firstParentNode, some secondParentNode =>
      let toCands := toCandidates commitNode firstParentNode secondParentNode
      let fromCands := fromCandidatesClaimed commitNode firstParentNode secondParentNode
      if toCands.length > 0 ∧ fromCands.length > 0 then
        let toBranch := if toCands.contains currentBranch then currentBranch else toCands.headD ""
        let fromBranch := fromCands.headD ""
        if fromBranch ≠ toBranch then
          some ⟨fromBranch, toBranch, commitHash, "three-way",
            s!"三路合并：{fromBranch} → {toBranch}", commitNode.timestamp⟩
        else none
      else none
    | _, _ => none
  else none

/-- Merge inference as the claim describes it. -/
def inferMergesClaimed (commits : JsMap CommitNodeInfo) (currentBranch : String) :
    List MergeEdge :=
  keepFirstByPair (commits.filterMap (mergeCandidateClaimed commits currentBranch))

/-- The persisted (`vscode.Memento`) state read by the cache manager,
split by key shape: `branchGraph:<repoId>:<headHash>` entries and
`branchGraphIndex:<repoId>` entries. -/
structure Storage where
  graphs : JsMap BranchGraphData
  index : JsMap (List String)
deriving Repr

def getBranchGraphStorageKey (repoId headHash : String) : String :=
  s!"branchGraph:{repoId}:{headHash}"

def getBranchGraphIndexKey (repoId : String) : String :=
  s!"branchGraphIndex:{repoId}"

/-- `loadBranchGraphFromStorage` (`storage = none` models
`this.storage === null`). -/
def loadBranchGraphFromStorage (storage : Option Storage) (repoId headHash : String) :
    Option BranchGraphData :=
  match storage with
  | none => none
  | some st =>
    if repoId = "" ∨ headHash = "" then none
    else mapGet st.graphs (getBranchGraphStorageKey repoId headHash)

/-- The external collaborators `getBranchGraph` awaits, as one oracle:
`git rev-parse HEAD`, `git log --all …`, `git log base..head …`,
`git.branch()`, `merge-base --is-ancestor` (already `false` on throw in
the source), `Date.now()`, the recorded merge history, and the
`storage.update` promise (keyed by the storage key; `.error` models a
rejected write, which the source awaits outside any try/catch). -/
structure GitOracle where
  revparseHead : Except Unit String
  logAll : Except Unit String
  logRange : String → String → Except Unit String
  branchResult : Except Unit BranchSummary
  isAncestor : String → String → Bool
  now : Int
  recorded : List MergeEdge
  storageUpdate : String → Except Unit Unit

/-- `saveBranchGraphToStorage`: a no-op without storage or identifiers;
otherwise awaits `storage.update` on the graph key and, when the head
hash is not yet indexed, on the index key — both awaits are outside any
try/catch, so a rejection propagates (`.error`). -/
def saveBranchGraphToStorage (storage : Option Storage)
    (update : String → Except Unit Unit) (repoId headHash : String) :
    Except Unit Unit :=
  match storage with
  | none => .ok ()
  | some st =>
    if repoId = "" ∨ headHash = "" then .ok ()
    else
      match update (getBranchGraphStorageKey repoId headHash) with
      | .error e => .error e
      | .ok _ =>
        let existingIndex := (mapGet st.index (getBranchGraphIndexKey repoId)).getD []
        if headHash ∈ existingIndex then .ok ()
        else update (getBranchGraphIndexKey repoId)

/-- The candidate scan of `tryBuildIncrementalBranchGraph`, iterating
the stored head hashes most-recent-first (the source walks the index
array from its last element down). -/
def tryCandidates (oracle : GitOracle) (storage : Option Storage)
    (repoId headHash : String) :
    List String → Except Unit (Option BranchGraphData)
  | [] => .ok none
  | candidate :: rest =>
    if candidate = "" ∨ candidate = headHash then
      tryCandidates oracle storage repoId headHash rest
    else
      match loadBranchGraphFromStorage storage repoId candidate with
      | none => tryCandidates oracle storage repoId headHash rest
      | some baseGraph =>
        if baseGraph.dag.isNone then tryCandidates oracle storage repoId headHash rest
        else if ¬ oracle.isAncestor candidate headHash then
          tryCandidates oracle storage repoId headHash rest
        else
          match buildBranchGraphIncrementally baseGraph
              (oracle.logRange candidate headHash) oracle.branchResult
              oracle.now oracle.recorded with
          | .error e => .error e
          | .ok (some incremental) => .ok (some incremental)
          | .ok none => tryCandidates oracle storage repoId headHash rest

/-- `tryBuildIncrementalBranchGraph`. -/
def tryBuildIncrementalBranchGraph (oracle : GitOracle) (storage : Option Storage)
    (repoId headHash : String) : Except Unit (Option BranchGraphData) :=
  match storage with
  | none => .ok none
  | some st =>
    let storedHashes := (mapGet st.index (getBranchGraphIndexKey repoId)).getD []
    if storedHashes.length = 0 then .ok none
    else tryCandidates oracle storage repoId headHash storedHashes.reverse

/-- `getBranchGraph`, modelled for its returned value: the in-memory
TTL cache is `memCache` (`some` = fresh hit); the in-memory `setCache`
writes do not affect the returned value and are elided, but the awaited
`saveBranchGraphToStorage` calls on the incremental and full paths are
kept — a rejected persistence write propagates (`.error`). -/
def getBranchGraph (forceRefresh : Bool) (memCache : Option BranchGraphData)
    (oracle : GitOracle) (storage : Option Storage) (repoId : String) :
    Except Unit BranchGraphData :=
  match if ¬ forceRefresh then memCache else none with
  | some cached => .ok cached
  | none =>
    let headHash := match oracle.revparseHead with
      | .ok h => jsTrim h
      | .error _ => ""
    match if ¬ forceRefresh ∧ headHash ≠ "" then
        loadBranchGraphFromStorage storage repoId headHash
      else none with
    | some persisted => .ok persisted
    | none =>
      match if ¬ forceRefresh ∧ headHash ≠ "" then
          tryBuildIncrementalBranchGraph oracle storage repoId headHash
        else .ok none with
      | .error e => .error e
      | .ok (some incrementalGraph) =>
        match saveBranchGraphToStorage storage oracle.storageUpdate repoId headHash with
        | .error e => .error e
        | .ok _ => .ok incrementalGraph
      | .ok none =>
        let fullGraph := buildFullBranchGraph oracle.logAll oracle.branchResult
          oracle.now oracle.recorded
        if headHash ≠ "" then
          match saveBranchGraphToStorage storage oracle.storageUpdate repoId headHash with
          | .error e => .error e
          | .ok _ => .ok fullGraph
        else .ok fullGraph

/-! Concrete inputs used in counterexamples and witnesses. -/

/-- A raw `git log` output of five commits, newest first. -/
def fiveCommitLog : String :=
  "e\x00d\x00refs/heads/main\x005000\nd\x00c\x00\x004000\nc\x00b\x00\x003000\nb\x00a\x00\x002000\na\x00\x00\x001000"

def exBranchSummary : BranchSummary := { all := ["main"], current := "main" }

/-- A three-entry commit map: earliest-inserted key "e" first. -/
def exEvictMap : JsMap CommitNodeInfo :=
  [("e", ⟨"e", ["d"], some 5000, []⟩),
   ("d", ⟨"d", ["c"], some 4000, []⟩),
   ("c", ⟨"c", ["b"], some 3000, []⟩)]

/-- A merge vertex `m` whose second parent carries a branch name `x`
that the first parent also carries but the merge commit does not. -/
def exMergeMap : JsMap CommitNodeInfo :=
  [("m", ⟨"m", ["p1", "p2"], some 3000, ["main"]⟩),
   ("p1", ⟨"p1", [], some 2000, ["main", "x"]⟩),
   ("p2", ⟨"p2", [], some 1000, ["x", "feature"]⟩)]

def exNodeM : CommitNodeInfo := ⟨"m", ["p1", "p2"], some 3000, ["main"]⟩

def exNodeP1 : CommitNodeInfo := ⟨"p1", [], some 2000, ["main", "x"]⟩

def exNodeP2 : CommitNodeInfo := ⟨"p2", [], some 1000, ["x", "feature"]⟩

/-- Two merge edges with the same `(from,to)` pair and different
commits. -/
def exEdgeA : MergeEdge := ⟨"f", "t", "c1", "three-way", "d1", none⟩

def exEdgeB : MergeEdge := ⟨"f", "t", "c2", "three-way", "d2", none⟩

/-- A merge vertex whose second parent hash is outside the loaded map. -/
def exTruncatedMap : JsMap CommitNodeInfo :=
  [("m", ⟨"m", ["p1", "out"], some 3000, ["main"]⟩),
   ("p1", ⟨"p1", [], some 2000, ["main", "feature"]⟩)]

/-- The full log at H1 (single commit `aaa`, decorated with `main`). -/
def exH1Log : String := "aaa\x00\x00refs/heads/main\x001000"

/-- The range log for `aaa..bbb` (the new commit `bbb`). -/
def exRangeLog : String := "bbb\x00aaa\x00refs/heads/main\x002000"

/-- The full log at H2: `main` now decorates `bbb`, and `aaa` is no
longer decorated. -/
def exH2Log : String := "bbb\x00aaa\x00refs/heads/main\x002000\naaa\x00\x00\x001000"

/-- A hypothetical full log at H2 that is exactly the range log
followed by the H1 log (decorations unchanged) — the situation in
which incremental and full rebuilds agree. -/
def exH2ConsistentLog : String := exRangeLog ++ "\n" ++ exH1Log

/-- The cached snapshot for H1: the full rebuild at `aaa`. -/
def exBaseGraph : BranchGraphData :=
  buildFullBranchGraph (.ok exH1Log) (.ok exBranchSummary) 0 []

/-- Persistent storage holding the H1 snapshot and its index entry. -/
def exStorage : Storage :=
  { graphs := [(getBranchGraphStorageKey "repo" "aaa", exBaseGraph)],
    index := [(getBranchGraphIndexKey "repo", ["aaa"])] }

/-- An oracle where the incremental range fetch fails but the full
rebuild succeeds with two commits. -/
def exOracle : GitOracle :=
  { revparseHead := .ok "bbb",
    logAll := .ok exH2Log,
    logRange := fun _ _ => .error (),
    branchResult := .ok exBranchSummary,
    isAncestor := fun _ _ => true,
    now := 0,
    recorded := [],
    storageUpdate := fun _ => .ok () }

/-- The same oracle with a rejecting persistence write. -/
def exOracleBadSave : GitOracle :=
  { exOracle with storageUpdate := fun _ => .error () }

end GitSvc

namespace GraphView

/-- A layout point: `x` is the track, `y` the row (`Vertex.id`). -/
structure Point where
  x : Nat
  y : Nat
deriving DecidableEq, Repr, Inhabited

/-- A branch line segment. -/
structure Line where
  p1 : Point
  p2 : Point
  isCommitted : Bool
  lockedFirst : Bool
deriving DecidableEq, Repr, Inhabited

/-- An `UnavailablePoint` registered on a vertex row.  `connectsTo` is
the id of the vertex the occupying segment runs towards (`none` models
the JavaScript `null` argument, `some (-1)` the shared sentinel
`nullVertex`); `onBranch` is the arena index of the owning Branch. -/
structure UnavailablePoint where
  connectsTo : Option Int
  onBranch : Nat
deriving DecidableEq, Repr, Inhabited

/-- A `Branch` of the layout engine.  Branches live in an arena
(`LayoutState.branches`) and are referenced by index; `endRow` is the
source's `end` field (a Lean keyword). -/
structure BranchState where
  colorIndex : Nat
  endRow : Nat
  lines : List Line
deriving DecidableEq, Repr, Inhabited

/-- A `Vertex` of the layout engine.  `id` is the row index; `parents`
and `children` hold vertex ids, `-1` standing for the sentinel
`nullVertex`; `onBranch` is an arena index. -/
structure Vrtx where
  id : Nat
  x : Nat
  children : List Int
  parents : List Int
  nextParent : Nat
  onBranch : Option Nat
  isCommitted : Bool
  isCurrent : Bool
  nextX : Nat
  connections : List (Option UnavailablePoint)
deriving DecidableEq, Repr, Inhabited

def Vrtx.getPoint (v : Vrtx) : Point := ⟨v.x, v.id⟩

def Vrtx.getNextPoint (v : Vrtx) : Point := ⟨v.nextX, v.id⟩

def Vrtx.getNextParent (v : Vrtx) : Option Int := v.parents.get? v.nextParent

def Vrtx.registerParentProcessed (v : Vrtx) : Vrtx :=
  { v with nextParent := v.nextParent + 1 }

def Vrtx.isMerge (v : Vrtx) : Bool := v.parents.length > 1

/-- `addToBranch`: binding is write-once — a vertex already on a branch
is left untouched. -/
def Vrtx.addToBranch (v : Vrtx) (branchIdx : Nat) (x : Nat) : Vrtx :=
  if v.onBranch = none then { v with onBranch := some branchIdx, x := x } else v

/-- `registerUnavailablePoint`: only effective at the vertex's next free
track; pads `connections` (absent JavaScript array slots read as
`undefined`, modelled `none`) and records the occupying connection. -/
def Vrtx.registerUnavailablePoint (v : Vrtx) (x : Nat) (connectsTo : Option Int)
    (branchIdx : Nat) : Vrtx :=
  if x = v.nextX then
    let conns :=
      if v.connections.length ≤ x then
        v.connections ++ List.replicate (x + 1 - v.connections.length) none
      else v.connections
    { v with nextX := x + 1, connections := conns.set x (some ⟨connectsTo, branchIdx⟩) }
  else v

/-- `getPointConnectingTo`: first registered track on this row that
connects to the given vertex on the given branch. -/
def Vrtx.getPointConnectingTo (v : Vrtx) (target : Int) (branchIdx : Nat) : Option Point :=
  match v.connections.findIdx? (fun c =>
      match c with
      | some u => u.connectsTo == some target && u.onBranch == branchIdx
      | none => false) with
  | some i => some ⟨i, v.id⟩
  | none => none

/-- The mutable state of one layout run: the vertex arena, the Branch
arena (in push order) and `availableColors`. -/
structure LayoutState where
  vertices : List Vrtx
  branches : List BranchState
  availableColors : List Nat
deriving DecidableEq, Repr, Inhabited

def listModify {α : Type} (l : List α) (i : Nat) (f : α → α) : List α :=
  match l.get? i with
  | none => l
  | some a => l.set i (f a)

def getVertex (st : LayoutState) (i : Nat) : Vrtx :=
  (st.vertices.get? i).getD default

def modifyVertex (st : LayoutState) (i : Nat) (f : Vrtx → Vrtx) : LayoutState :=
  { st with vertices := listModify st.vertices i f }

def branchAddLine (st : LayoutState) (bIdx : Nat) (p1 p2 : Point)
    (isCommitted lockedFirst : Bool) : LayoutState :=
  let bs := listModify st.branches bIdx
    (fun b => { b with lines := b.lines ++ [⟨p1, p2, isCommitted, lockedFirst⟩] })
  { st with branches := bs }

/-- The scan of `getAvailableColour`: index of the first slot whose
recorded value is strictly below `startAt`. -/
def gacFind (startAt : Nat) : List Nat → Option Nat
  | [] => none
  | v :: rest => if startAt > v then some 0 else (gacFind startAt rest).map (· + 1)

/-- `getAvailableColour(startAt, availableColors)`: first slot whose
recorded end row is strictly below `startAt`, else a fresh appended
slot.  Returns the chosen index and the (possibly extended) array. -/
def getAvailableColour (startAt : Nat) (availableColors : List Nat) : Nat × List Nat :=
  match gacFind startAt availableColors with
  | some i => (i, availableColors)
  | none => (availableColors.length, availableColors ++ [0])

/-- The forward scan of the merge-continuation case of `determinePath`:
draws segments on the parent's branch until a point resolving the
connection to the parent is found.  Returns the updated state and
whether the connection was resolved. -/
def mergeWalk (pidN bIdx : Nat) (vCommitted : Bool) :
    Nat → LayoutState → Point → Nat → LayoutState × Bool
  | 0, st, _, _ => (st, false)
  | fuel + 1, st, lastPoint, i =>
    if i < st.vertices.length then
      let curVertex := getVertex st i
      let existingPoint := curVertex.getPointConnectingTo (Int.ofNat pidN) bIdx
      let (curPoint, found) :=
        match existingPoint with
        | some pt => (pt, true)
        | none =>
          if i = pidN then (curVertex.getPoint, true)
          else (curVertex.getNextPoint, false)
      let lockedFirst := if !found && (i != pidN) then decide (lastPoint.x < curPoint.x) else true
      let st := branchAddLine st bIdx lastPoint curPoint vCommitted lockedFirst
      let st := modifyVertex st i
        (fun v => v.registerUnavailablePoint curPoint.x (some (Int.ofNat pidN)) bIdx)
      if found then (st, true)
      else mergeWalk pidN bIdx vCommitted fuel st curPoint (i + 1)
    else (st, false)

/-- The forward scan of the normal branch case of `determinePath`:
walks first-parent chains onto one Branch.  Returns the updated state,
the final row variable `i`, the final cursor vertex, and its pending
parent. -/
def normalWalk (bIdx : Nat) :
    Nat → LayoutState → Nat → Option Int → Point → Nat →
    LayoutState × Nat × Nat × Option Int
  | 0, st, cursor, parentId, _, i => (st, i, cursor, parentId)
  | fuel + 1, st, cursor, parentId, lastPoint, i =>
    if i < st.vertices.length then
      let curVertex := getVertex st i
      let isParentRow := parentId == some (Int.ofNat i)
      let curPoint :=
        if isParentRow && curVertex.onBranch.isSome then curVertex.getPoint
        else curVertex.getNextPoint
      let lockedFirst := decide (lastPoint.x < curPoint.x)
      let st := branchAddLine st bIdx lastPoint curPoint (getVertex st cursor).isCommitted lockedFirst
      let st := modifyVertex st i
        (fun v => v.registerUnavailablePoint curPoint.x parentId bIdx)
      if isParentRow then
        let st := modifyVertex st cursor Vrtx.registerParentProcessed
        let parentOnBranch := (getVertex st i).onBranch.isSome
        let st := modifyVertex st i (fun v => v.addToBranch bIdx curPoint.x)
        let parentId := (getVertex st i).getNextParent
        if parentId = none || parentOnBranch then (st, i, i, parentId)
        else normalWalk bIdx fuel st i parentId curPoint (i + 1)
      else normalWalk bIdx fuel st cursor parentId curPoint (i + 1)
    else (st, i, cursor, parentId)

/-- The guard of `determinePath`'s first case: the vertex is a merge
already on a branch whose next pending parent is real and itself
already bound. -/
def isMergeContOf (st : LayoutState) (startAt : Nat) : Bool :=
  match (getVertex st startAt).getNextParent with
  | some pid =>
    pid != -1 && (getVertex st startAt).isMerge &&
      (getVertex st startAt).onBranch.isSome &&
      (getVertex st pid.toNat).onBranch.isSome
  | none => false

/-- `determinePath`'s starting point: the vertex's next free track when
still unbound, else its assigned point. -/
def dpLastPoint (st : LayoutState) (startAt : Nat) : Point :=
  let vertex := getVertex st startAt
  if vertex.onBranch = none then vertex.getNextPoint else vertex.getPoint

/-- The merge-continuation case of `determinePath`. -/
def dpMerge (st : LayoutState) (startAt : Nat) : LayoutState :=
  match (getVertex st startAt).getNextParent with
  | some pid =>
    let pidN := pid.toNat
    let bIdx := ((getVertex st pidN).onBranch).getD 0
    let mw := mergeWalk pidN bIdx (getVertex st startAt).isCommitted
      st.vertices.length st (dpLastPoint st startAt) (startAt + 1)
    if mw.2 then modifyVertex mw.1 startAt Vrtx.registerParentProcessed else mw.1
  | none => st

/-- The set-up of the normal branch case of `determinePath`: take a
color slot, push a fresh Branch (`end = 0` until the walk finishes) and
bind/register the start vertex on it. -/
def dpPre (st : LayoutState) (startAt : Nat) : LayoutState :=
  let gc := getAvailableColour startAt st.availableColors
  let st1 : LayoutState := ⟨st.vertices, st.branches ++ [⟨gc.1, 0, []⟩], gc.2⟩
  let bIdx := st.branches.length
  let st2 := modifyVertex st1 startAt
    (fun v => v.addToBranch bIdx (dpLastPoint st startAt).x)
  modifyVertex st2 startAt
    (fun v => v.registerUnavailablePoint (dpLastPoint st startAt).x
      (some (Int.ofNat startAt)) bIdx)

/-- The walk of the normal branch case, started on the state prepared
by `dpPre`. -/
def dpWalk (st : LayoutState) (startAt : Nat) :
    LayoutState × Nat × Nat × Option Int :=
  normalWalk st.branches.length (dpPre st startAt).vertices.length (dpPre st startAt)
    startAt ((getVertex st startAt).getNextParent) (dpLastPoint st startAt) (startAt + 1)

/-- The normal branch case of `determinePath`: after the walk, record
the Branch's `end` and write it back into `availableColors`. -/
def dpNormal (st : LayoutState) (startAt : Nat) : LayoutState :=
  let nw := dpWalk st startAt
  let st4 := nw.1
  let endI := nw.2.1
  let cursor := nw.2.2.1
  let parentId2 := nw.2.2.2
  let st5 :=
    if endI = st4.vertices.length ∧ parentId2 = some (-1) then
      modifyVertex st4 cursor Vrtx.registerParentProcessed
    else st4
  ⟨st5.vertices,
   listModify st5.branches st.branches.length (fun b => { b with endRow := endI }),
   st5.availableColors.set (getAvailableColour startAt st.availableColors).1 endI⟩

/-- `determinePath(startAt)`. -/
def determinePath (st : LayoutState) (startAt : Nat) : LayoutState :=
  if isMergeContOf st startAt then dpMerge st startAt else dpNormal st startAt

/-- The outer scan of `buildGraphData`: re-run `determinePath(i)` while
row `i` has an unprocessed parent or is unbound, else advance.  The
source `while` loop is modelled with explicit fuel; the pipeline below
supplies a fuel generous for every terminating execution. -/
def mainLoop : Nat → LayoutState → Nat → LayoutState
  | 0, st, _ => st
  | fuel + 1, st, i =>
    if i < st.vertices.length then
      let v := getVertex st i
      if v.getNextParent ≠ none ∨ v.onBranch = none then
        mainLoop fuel (determinePath st i) i
      else mainLoop fuel st (i + 1)
    else st

/-- Row `j` is settled: its vertex has no pending parent edge and is
bound to a Branch — the negation of the outer loop's work test. -/
def rowDone (st : LayoutState) (j : Nat) : Prop :=
  (getVertex st j).getNextParent = none ∧ (getVertex st j).onBranch ≠ none

/-- The source's outer `while` loop as a partial function: `some`
exactly when the loop condition `i < vertices.length` fails within the
given fuel (a genuine loop exit), `none` when the fuel runs out first —
in particular on inputs where the source loop diverges.  On a `some`
result it agrees with `mainLoop` at the same fuel. -/
def mainLoopO : Nat → LayoutState → Nat → Option LayoutState
  | 0, _, _ => none
  | fuel + 1, st, i =>
    if i < st.vertices.length then
      let v := getVertex st i
      if v.getNextParent ≠ none ∨ v.onBranch = none then
        mainLoopO fuel (determinePath st i) i
      else mainLoopO fuel st (i + 1)
    else some st

/-- One iteration of the completion sweep: an unbound vertex gets a
fresh singleton Branch with `end = i + 1`, and `availableColors` is set
to `i` for its color. -/
def sweepStep (st : LayoutState) (i : Nat) : LayoutState :=
  let vertex := getVertex st i
  if vertex.onBranch = none then
    let gc := getAvailableColour i st.availableColors
    let st1 : LayoutState := ⟨st.vertices, st.branches ++ [⟨gc.1, i + 1, []⟩], gc.2⟩
    let bIdx := st.branches.length
    let point := vertex.getNextPoint
    let st2 := modifyVertex st1 i (fun v => v.addToBranch bIdx point.x)
    let st3 := modifyVertex st2 i
      (fun v => v.registerUnavailablePoint point.x (some (Int.ofNat i)) bIdx)
    ⟨st3.vertices, st3.branches, st3.availableColors.set gc.1 i⟩
  else st

def sweepFrom : Nat → LayoutState → Nat → LayoutState
  | 0, st, _ => st
  | fuel + 1, st, i =>
    if i < st.vertices.length then sweepFrom fuel (sweepStep st i) (i + 1) else st

/-- The completion sweep over all rows. -/
def completionSweep (st : LayoutState) : LayoutState :=
  sweepFrom st.vertices.length st 0

/-- One input node of the layout computation: an entry of the
`nodeMap` `buildGraphData` derives from `dag.nodes` (branches/parents
already resolved through the log fallbacks). -/
structure InputNode where
  hash : String
  parents : List String
  branches : List String
  timestamp : Int
deriving DecidableEq, Repr, Inhabited

/-- Stable insertion into a list sorted by descending timestamp:
an element passes every entry with a timestamp at least as large, so
ties keep original (insertion) order, as the stable JavaScript
`sort((a, b) => b.timestamp - a.timestamp)` does. -/
def insertByTsDesc (x : String × InputNode) :
    List (String × InputNode) → List (String × InputNode)
  | [] => [x]
  | y :: ys =>
    if x.2.timestamp ≥ y.2.timestamp then x :: y :: ys else y :: insertByTsDesc x ys

def sortByTsDesc (l : List (String × InputNode)) : List (String × InputNode) :=
  l.foldr insertByTsDesc []

/-- Fresh vertices wired with parent/child edges; a parent hash absent
from the map contributes a `-1` (sentinel `nullVertex`) parent. -/
def wireVertices (sorted : List (String × InputNode)) : List Vrtx :=
  let hashes := sorted.map Prod.fst
  let lookup := fun h => hashes.findIdx? (fun x => x = h)
  let init := (List.range sorted.length).map (fun i =>
    ({ id := i, x := 0, children := [], parents := [], nextParent := 0,
       onBranch := none, isCommitted := true, isCurrent := false, nextX := 0,
       connections := [] } : Vrtx))
  sorted.enum.foldl
    (fun vs e =>
      e.2.2.parents.foldl
        (fun vs parentHash =>
          match lookup parentHash with
          | some pIdx =>
            let vs := listModify vs e.1
              (fun v => { v with parents := v.parents ++ [Int.ofNat pIdx] })
            listModify vs pIdx
              (fun v => { v with children := v.children ++ [Int.ofNat e.1] })
          | none =>
            listModify vs e.1 (fun v => { v with parents := v.parents ++ [-1] }))
        vs)
    init

/-- Mark the first (newest) vertex whose branch set contains the
current branch name. -/
def markCurrent (sorted : List (String × InputNode)) (vs : List Vrtx)
    (currentBranch : Option String) : List Vrtx :=
  match currentBranch with
  | none => vs
  | some cb =>
    match sorted.findIdx? (fun e => e.2.branches.contains cb) with
    | some i => listModify vs i (fun v => { v with isCurrent := true })
    | none => vs

/-- Fuel for the outer scan, generous for every terminating execution
(each `determinePath` call of a terminating run binds a vertex or
processes a parent edge, and each skip advances the row). -/
def mainLoopFuel (st : LayoutState) : Nat :=
  (st.vertices.length + 1) * ((st.vertices.map (fun v => v.parents.length)).sum + 2)

/-- The initial layout state: build the node map, sort rows
newest-first (stable), wire vertices, mark the current head. -/
def layoutInit (input : List InputNode) (currentBranch : Option String) : LayoutState :=
  let nodeMap := input.foldl (fun m n => GitSvc.mapSet m n.hash n) []
  let sorted := sortByTsDesc nodeMap
  ⟨markCurrent sorted (wireVertices sorted) currentBranch, [], []⟩

/-- The layout portion of `buildGraphData`: run the outer
`determinePath` scan on the initial state, then the completion sweep. -/
def buildGraphDataLayout (input : List InputNode) (currentBranch : Option String) :
    LayoutState :=
  let st := layoutInit input currentBranch
  completionSweep (mainLoop (mainLoopFuel st) st 0)

/-- The per-vertex `{x, colorIndex}` assignment read off the final
state (`vertex.getBranch()?.getColorIndex() || 0`). -/
def layoutAssignments (st : LayoutState) : List (Nat × Nat) :=
  st.vertices.map (fun v =>
    (v.x,
      match v.onBranch with
      | some b => ((st.branches.get? b).map BranchState.colorIndex).getD 0
      | none => 0))

/-- The per-Branch ordered `Line[]` lists. -/
def layoutLines (st : LayoutState) : List (List Line) :=
  st.branches.map BranchState.lines

/-- The Branch binding of the vertex at row `j` (`none` when the row
does not exist or the vertex is unbound). -/
def bindingOf (st : LayoutState) (j : Nat) : Option Nat :=
  (st.vertices.get? j).bind Vrtx.onBranch

/-- The `(colorIndex, end)` projection of the Branch arena — the data
the color-recycling invariant is about. -/
def colorEnds (l : List BranchState) : List (Nat × Nat) :=
  l.map (fun b => (b.colorIndex, b.endRow))

/-- The recorded end of the latest Branch holding color `c`. -/
def lastEndFor (ces : List (Nat × Nat)) (c : Nat) : Option Nat :=
  ((ces.filter (fun p => p.1 = c)).map Prod.snd).getLast?

/-- The color bookkeeping invariant of the main loop: for every color,
`availableColors` records exactly the end row of the latest Branch
holding it. -/
def ColorInv (st : LayoutState) : Prop :=
  ∀ c e, lastEndFor (colorEnds st.branches) c = some e →
    st.availableColors.get? c = some e

/-! Concrete inputs used in counterexamples and witnesses. -/

/-- A linear three-commit chain. -/
def exLinearInput : List InputNode :=
  [⟨"c3", ["c2"], ["main"], 3000⟩, ⟨"c2", ["c1"], [], 2000⟩, ⟨"c1", [], [], 1000⟩]

end GraphView

namespace GitSvc

theorem enforceLoop_eq_take (limit : Nat) :
    ∀ (n : Nat) (m : JsMap CommitNodeInfo), m.length ≤ n →
      enforceLoop limit n m = m.take limit := by
  intro n
  induction n with
  | zero =>
    intro m hm
    have hm0 : m = [] := List.eq_nil_of_length_eq_zero (Nat.le_zero.mp hm)
    subst hm0
    simp [enforceLoop]
  | succ n ih =>
    intro m hm
    rw [enforceLoop]
    by_cases h : m.length ≤ limit
    · rw [if_pos h, List.take_of_length_le h]
    · rw [if_neg h]
      rw [ih m.dropLast (by simp only [List.length_dropLast]; omega)]
      rw [List.dropLast_eq_take, List.take_take]
      congr 1
      omega

/-- Eviction keeps the first `limit` entries of the map, i.e. removes
from the end of insertion order. -/
theorem enforce_eq_take (limit : Nat) (m : JsMap CommitNodeInfo) :
    enforceCommitLimitWith limit m = m.take limit :=
  enforceLoop_eq_take limit m.length m le_rfl

/-- C5 counterexample: the claim predicts that eviction removes the
earliest-inserted entries first, so that on a three-entry map with
limit 2 the two most-recently-inserted entries (`drop 1`) remain; the
code instead keeps the two earliest-inserted entries (`take 2`). -/
theorem c5_eviction_order_counterexample :
    enforceCommitLimitWith 2 exEvictMap = exEvictMap.take 2 ∧
      exEvictMap.take 2 ≠ exEvictMap.drop (exEvictMap.length - 2) :=
  ⟨enforce_eq_take 2 exEvictMap, by decide⟩

/-- C5 (amended): for every commit map whose node count exceeds the
limit, eviction removes the excess nodes from the end of map-insertion
order — the most-recently-inserted entries are removed first, so the
earliest-inserted `limit` entries remain (`take limit`). -/
theorem c5_eviction_order_amended :
    ∀ (limit : Nat) (m : JsMap CommitNodeInfo),
      enforceCommitLimitWith limit m = m.take limit :=
  fun limit m => enforce_eq_take limit m

/-- C7: after enforcement the node count never exceeds the limit;
enforcement on a map of size at most the limit is the identity; and
with limit 2 and five parsed commits the resulting snapshot has
exactly 2 nodes. -/
theorem c7_eviction_bound :
    (∀ (limit : Nat) (m : JsMap CommitNodeInfo),
        (enforceCommitLimitWith limit m).length ≤ limit) ∧
    (∀ (limit : Nat) (m : JsMap CommitNodeInfo),
        m.length ≤ limit → enforceCommitLimitWith limit m = m) ∧
    ((buildBranchGraphFromCommitMap
        (enforceCommitLimitWith 2 (parseGitLogToCommitMap 0 fiveCommitLog))
        exBranchSummary []).dag.map (fun d => d.nodes.length)) = some 2 := by
  refine ⟨fun limit m => ?_, fun limit m hm => ?_, ?_⟩
  · rw [enforce_eq_take, List.length_take]
    omega
  · rw [enforce_eq_take, List.take_of_length_le hm]
  · rw [enforce_eq_take]
    decide

/-- Witness for C7: instantiating the identity clause on a concrete
three-entry map with limit 5. -/
theorem c7_eviction_bound_witness :
    exEvictMap.length ≤ 5 ∧ enforceCommitLimitWith 5 exEvictMap = exEvictMap :=
  ⟨by decide, c7_eviction_bound.2.1 5 exEvictMap (by decide)⟩

theorem mem_mapSet {α : Type} {m : JsMap α} {k : String} {v : α} {e : String × α}
    (h : e ∈ mapSet m k v) : e ∈ m ∨ e = (k, v) := by
  unfold mapSet at h
  split at h
  · rcases List.mem_map.mp h with ⟨a, ha, hae⟩
    by_cases hk : a.1 = k
    · right
      rw [if_pos hk] at hae
      exact hae.symm
    · left
      rw [if_neg hk] at hae
      exact hae ▸ ha
  · rcases List.mem_append.mp h with h1 | h2
    · exact Or.inl h1
    · exact Or.inr (List.mem_singleton.mp h2)

theorem parseLines_mem_aux (now : Int) :
    ∀ (lines : List String) (acc : JsMap CommitNodeInfo) (e : String × CommitNodeInfo),
      e ∈ lines.foldl
        (fun m line =>
          match parseRecord now line with
          | none => m
          | some (h, n) => mapSet m h n) acc →
      e ∈ acc ∨ ∃ line ∈ lines, parseRecord now line = some e := by
  intro lines
  induction lines with
  | nil => exact fun acc e h => Or.inl h
  | cons l ls ih =>
    intro acc e h
    simp only [List.foldl_cons] at h
    rcases hrec : parseRecord now l with _ | p
    · rw [hrec] at h
      rcases ih acc e h with h0 | ⟨line, hline, hpl⟩
      · exact Or.inl h0
      · exact Or.inr ⟨line, List.mem_cons_of_mem l hline, hpl⟩
    · obtain ⟨hh, nn⟩ := p
      rw [hrec] at h
      rcases ih (mapSet acc hh nn) e h with h0 | ⟨line, hline, hpl⟩
      · rcases mem_mapSet h0 with h1 | h2
        · exact Or.inl h1
        · exact Or.inr ⟨l, List.mem_cons_self l ls, h2 ▸ hrec⟩
      · exact Or.inr ⟨line, List.mem_cons_of_mem l hline, hpl⟩

theorem parseLines_mem {now : Int} {lines : List String} {e : String × CommitNodeInfo}
    (h : e ∈ parseLines now lines) : ∃ line ∈ lines, parseRecord now line = some e := by
  rcases parseLines_mem_aux now lines [] e h with h0 | h1
  · cases h0
  · exact h1

theorem parseRecord_none_of_short {now : Int} {line : String}
    (h : (splitOnChar (Char.ofNat 0) line).length < 4) : parseRecord now line = none := by
  unfold parseRecord
  rw [if_pos h]

theorem parseRecord_spec {now : Int} {line hkey : String} {n : CommitNodeInfo}
    (hp : parseRecord now line = some (hkey, n)) : ParsedLineSpec now line hkey n := by
  unfold parseRecord at hp
  unfold ParsedLineSpec
  by_cases h4 : (splitOnChar (Char.ofNat 0) line).length < 4
  · rw [if_pos h4] at hp
    cases hp
  · rw [if_neg h4] at hp
    by_cases hh0 : jsTrim ((splitOnChar (Char.ofNat 0) line).getD 0 "") = ""
    · simp only [hh0, if_pos rfl] at hp
      cases hp
    · simp only [if_neg hh0] at hp
      injection hp with hp
      injection hp with hp1 hp2
      subst hp1
      subst hp2
      refine ⟨by omega, rfl, hh0, rfl, ?_, ?_, ?_, ?_, ?_⟩
      · by_cases hps : jsTrim ((splitOnChar (Char.ofNat 0) line).getD 1 "") = ""
        · simp only [hps, if_neg (by simp : ¬ ("" : String) ≠ "")]
          decide
        · simp only [if_pos hps]
      · intro p hpmem
        by_cases hps : jsTrim ((splitOnChar (Char.ofNat 0) line).getD 1 "") = ""
        · simp only [hps, if_neg (by simp : ¬ ("" : String) ≠ "")] at hpmem
          cases hpmem
        · simp only [if_pos hps] at hpmem
          have := List.of_mem_filter hpmem
          intro hpe
          subst hpe
          simp [jsTrim] at this
      · by_cases hrs : jsTrim ((splitOnChar (Char.ofNat 0) line).getD 2 "") = ""
        · simp only [hrs, if_neg (by simp : ¬ ("" : String) ≠ "")]
          decide
        · simp only [if_pos hrs]
      · intro ht
        simp only [if_pos ht]
      · intro ht
        simp only [ht, if_neg (by simp : ¬ ("" : String) ≠ "")]

/-- C8: the log normalizer is total by construction; whitespace-only
lines never enter the per-line loop; a line with fewer than 4
NUL-separated fields contributes nothing (removing it leaves the
result unchanged); and every retained entry satisfies the field rules
`ParsedLineSpec` (non-empty parent tokens of field 1; only
`refs/heads/`-prefixed refs, stripped, populate branches; seconds
scaled to milliseconds; missing timestamp falls back to now). -/
theorem c8_parser_rules :
    (∀ (s line : String), line ∈ logLines s → jsTrim line ≠ "") ∧
    (∀ (now : Int) (pre post : List String) (line : String),
      (splitOnChar (Char.ofNat 0) line).length < 4 →
        parseLines now (pre ++ line :: post) = parseLines now (pre ++ post)) ∧
    (∀ (now : Int) (lines : List String) (hkey : String) (n : CommitNodeInfo),
      (hkey, n) ∈ parseLines now lines →
        ∃ line ∈ lines, ParsedLineSpec now line hkey n) := by
  refine ⟨?_, ?_, ?_⟩
  · intro s line hmem
    exact (List.mem_filter.mp hmem).2 |> fun h => by simpa using h
  · intro now pre post line hshort
    unfold parseLines
    rw [List.foldl_append, List.foldl_append, List.foldl_cons,
      parseRecord_none_of_short hshort]
  · intro now lines hkey n hmem
    rcases parseLines_mem hmem with ⟨line, hline, hrec⟩
    exact ⟨line, hline, parseRecord_spec hrec⟩

/-- Witness for C8: a malformed line is dropped without aborting, and
the single retained entry of a concrete well-formed log line satisfies
the field rules. -/
theorem c8_parser_rules_witness :
    parseLines 42 ([] ++ "bad" :: ["abc\x00p1 p2\x00refs/heads/main, refs/tags/v1\x001700"]) =
      parseLines 42 ([] ++ ["abc\x00p1 p2\x00refs/heads/main, refs/tags/v1\x001700"]) ∧
    (∃ line ∈ ["abc\x00p1 p2\x00refs/heads/main, refs/tags/v1\x001700"],
      ParsedLineSpec 42 line "abc"
        ⟨"abc", ["p1", "p2"], some 1700000, ["main"]⟩) :=
  ⟨c8_parser_rules.2.1 42 [] ["abc\x00p1 p2\x00refs/heads/main, refs/tags/v1\x001700"]
      "bad" (by decide),
   c8_parser_rules.2.2 42 ["abc\x00p1 p2\x00refs/heads/main, refs/tags/v1\x001700"]
      "abc" ⟨"abc", ["p1", "p2"], some 1700000, ["main"]⟩ (by decide)⟩

theorem mergeCandidate_facts {commits : JsMap CommitNodeInfo} {currentBranch : String}
    {e : String × CommitNodeInfo} {m : MergeEdge}
    (h : mergeCandidate commits currentBranch e = some m) :
    m.commit = e.1 ∧ 2 ≤ e.2.parents.length ∧
    (mapGet commits (e.2.parents.getD 0 "")).isSome = true ∧
    (mapGet commits (e.2.parents.getD 1 "")).isSome = true := by
  unfold mergeCandidate at h
  by_cases h2 : e.2.parents.length ≥ 2
  · rw [if_pos h2] at h
    rcases hp1 : mapGet commits (e.2.parents.getD 0 "") with _ | p1 <;>
      rcases hp2 : mapGet commits (e.2.parents.getD 1 "") with _ | p2 <;>
      rw [hp1, hp2] at h
    · simp at h
    · simp at h
    · simp at h
    · refine ⟨?_, h2, rfl, rfl⟩
      by_cases hc : (toCandidates e.2 p1 p2).length > 0 ∧ (fromCandidates e.2 p1 p2).length > 0
      · simp only [hc, if_true] at h
        split at h
        · split at h
          · split at h
            · cases h
              rfl
            · cases h
          · split at h
            · cases h
              rfl
            · cases h
        · cases h
      · simp only [hc, if_false] at h
        cases h
  · rw [if_neg h2] at h
    cases h

theorem mem_foldl_mergeStep (commits : JsMap CommitNodeInfo) (currentBranch : String) :
    ∀ (l : List (String × CommitNodeInfo)) (acc : List MergeEdge) (m : MergeEdge),
      m ∈ l.foldl (mergeStep commits currentBranch) acc →
      m ∈ acc ∨ ∃ e ∈ l, mergeCandidate commits currentBranch e = some m := by
  intro l
  induction l with
  | nil => exact fun acc m h => Or.inl h
  | cons e es ih =>
    intro acc m h
    simp only [List.foldl_cons] at h
    rcases ih (mergeStep commits currentBranch acc e) m h with h0 | ⟨f, hf, hm⟩
    · unfold mergeStep at h0
      rcases hc : mergeCandidate commits currentBranch e with _ | edge
      · rw [hc] at h0
        exact Or.inl h0
      · rw [hc] at h0
        replace h0 : m ∈
            if (acc.any fun x =>
                decide (x.fromBranch = edge.fromBranch ∧ x.toBranch = edge.toBranch)) = true
            then acc else acc ++ [edge] := h0
        by_cases hdup :
          (acc.any fun x => decide (x.fromBranch = edge.fromBranch ∧ x.toBranch = edge.toBranch)) = true
        · rw [if_pos hdup] at h0
          exact Or.inl h0
        · rw [if_neg hdup] at h0
          rcases List.mem_append.mp h0 with h1 | h2
          · exact Or.inl h1
          · have hme : m = edge := List.mem_singleton.mp h2
            exact Or.inr ⟨e, List.mem_cons_self e es, hme ▸ hc⟩
    · exact Or.inr ⟨f, List.mem_cons_of_mem e hf, hm⟩

theorem nodup_assoc_unique {α : Type} {l : List (String × α)} {k : String} {a b : α}
    (hnd : (l.map Prod.fst).Nodup) (ha : (k, a) ∈ l) (hb : (k, b) ∈ l) : a = b := by
  induction l with
  | nil => cases ha
  | cons e es ih =>
    have hnd2 : e.1 ∉ es.map Prod.fst ∧ (es.map Prod.fst).Nodup := by
      rw [List.map_cons] at hnd
      exact List.nodup_cons.mp hnd
    rcases List.mem_cons.mp ha with ha1 | ha2
    · rcases List.mem_cons.mp hb with hb1 | hb2
      · exact congrArg Prod.snd (ha1.trans hb1.symm)
      · exfalso
        have hk : k = e.1 := congrArg Prod.fst ha1
        exact hnd2.1 (hk ▸ List.mem_map.mpr ⟨(k, b), hb2, rfl⟩)
    · rcases List.mem_cons.mp hb with hb1 | hb2
      · exfalso
        have hk : k = e.1 := congrArg Prod.fst hb1
        exact hnd2.1 (hk ▸ List.mem_map.mpr ⟨(k, a), ha2, rfl⟩)
      · exact ih hnd2.2 ha2 hb2

/-- C10: a merge vertex one of whose first two parent hashes is absent
from the loaded commit map contributes no merge edge: every inferred
merge names a different commit. -/
theorem c10_missing_parent_skip :
    ∀ (commits : JsMap CommitNodeInfo) (currentBranch hkey : String)
      (node : CommitNodeInfo),
      (commits.map Prod.fst).Nodup →
      (hkey, node) ∈ commits →
      2 ≤ node.parents.length →
      (mapGet commits (node.parents.getD 0 "") = none ∨
        mapGet commits (node.parents.getD 1 "") = none) →
      ∀ m ∈ inferMerges commits currentBranch, m.commit ≠ hkey := by
  intro commits currentBranch hkey node hnd hmem _ hmiss m hm
  intro hcommit
  rcases mem_foldl_mergeStep commits currentBranch commits [] m hm with h0 | ⟨e, he, hcand⟩
  · cases h0
  · rcases mergeCandidate_facts hcand with ⟨hc, _, hp1, hp2⟩
    have hek : e.1 = hkey := by rw [← hc, hcommit]
    have he2 : e.2 = node := by
      have : (hkey, e.2) ∈ commits := by
        have : e = (e.1, e.2) := rfl
        rw [this, hek] at he
        exact he
      exact nodup_assoc_unique hnd this hmem
    rw [he2] at hp1 hp2
    rcases hmiss with hnone | hnone
    · rw [hnone] at hp1
      cases hp1
    · rw [hnone] at hp2
      cases hp2

/-- Witness for C10: on a concrete map with a truncated second parent,
the inferred merges name no edge for the merge commit (the merge list
is in fact empty). -/
theorem c10_missing_parent_skip_witness :
    ((exTruncatedMap.map Prod.fst).Nodup ∧
      ("m", ⟨"m", ["p1", "out"], some 3000, ["main"]⟩) ∈ exTruncatedMap ∧
      2 ≤ (["p1", "out"] : List String).length ∧
      mapGet exTruncatedMap "out" = none) ∧
    (∀ m ∈ inferMerges exTruncatedMap "main", m.commit ≠ "m") :=
  ⟨⟨by decide, by decide, by decide, by decide⟩,
   c10_missing_parent_skip exTruncatedMap "main" "m"
     ⟨"m", ["p1", "out"], some 3000, ["main"]⟩ (by decide) (by decide) (by decide)
     (Or.inr (by decide))⟩

theorem mem_toCandidates {n p1 p2 : CommitNodeInfo} {b : String} :
    b ∈ toCandidates n p1 p2 ↔
      b ∈ n.branches ∧ b ∈ p1.branches ∧ b ∉ p2.branches := by
  simp [toCandidates, List.mem_filter, List.elem_iff]

theorem mem_fromCandidates {n p1 p2 : CommitNodeInfo} {b : String} :
    b ∈ fromCandidates n p1 p2 ↔
      b ∈ p2.branches ∧
        (b ∉ p1.branches ∨ (b ∈ n.branches ∧ b ∉ toCandidates n p1 p2)) := by
  simp only [fromCandidates, List.mem_filter]
  constructor
  · rintro ⟨hb2, hf⟩
    refine ⟨hb2, ?_⟩
    by_cases hp1 : p1.branches.contains b
    · rw [if_pos hp1] at hf
      right
      simpa [List.elem_iff] using hf
    · left
      simpa [List.elem_iff] using hp1
  · rintro ⟨hb2, hor⟩
    refine ⟨hb2, ?_⟩
    by_cases hp1 : p1.branches.contains b
    · rw [if_pos hp1]
      rcases hor with hno | ⟨hn, hto⟩
      · exact absurd (List.elem_iff.mp hp1) hno
      · simpa [List.elem_iff] using ⟨hn, hto⟩
    · rw [if_neg hp1]

theorem foldl_mergeStep_eq_keepFirst (commits : JsMap CommitNodeInfo)
    (currentBranch : String) :
    ∀ (l : List (String × CommitNodeInfo)) (acc : List MergeEdge),
      l.foldl (mergeStep commits currentBranch) acc =
        (l.filterMap (mergeCandidate commits currentBranch)).foldl keepFirstStep acc := by
  intro l
  induction l with
  | nil => intro acc; rfl
  | cons e es ih =>
    intro acc
    simp only [List.foldl_cons]
    rcases hc : mergeCandidate commits currentBranch e with _ | edge
    · rw [List.filterMap_cons_none hc]
      have hstep : mergeStep commits currentBranch acc e = acc := by
        unfold mergeStep
        rw [hc]
      rw [hstep]
      exact ih acc
    · rw [List.filterMap_cons_some hc]
      simp only [List.foldl_cons]
      have hstep : mergeStep commits currentBranch acc e = keepFirstStep acc edge := by
        unfold mergeStep keepFirstStep
        rw [hc]
      rw [hstep]
      exact ih (keepFirstStep acc edge)

theorem keepFirst_acc_subset :
    ∀ (l : List MergeEdge) (acc : List MergeEdge), acc ⊆ l.foldl keepFirstStep acc := by
  intro l
  induction l with
  | nil => intro acc x hx; exact hx
  | cons e es ih =>
    intro acc x hx
    simp only [List.foldl_cons]
    refine ih (keepFirstStep acc e) ?_
    unfold keepFirstStep
    split
    · exact hx
    · exact List.mem_append.mpr (Or.inl hx)

theorem keepFirstStep_subset {acc : List MergeEdge} {e : MergeEdge} :
    acc ⊆ keepFirstStep acc e := by
  unfold keepFirstStep
  split
  · exact fun x hx => hx
  · exact fun x hx => List.mem_append.mpr (Or.inl hx)

theorem keepFirst_find_aux :
    ∀ (l : List MergeEdge) (acc : List MergeEdge) (m : MergeEdge),
      m ∈ l.foldl keepFirstStep acc →
      m ∈ acc ∨
        ((∀ x ∈ acc, ¬ (x.fromBranch = m.fromBranch ∧ x.toBranch = m.toBranch)) ∧
          l.find? (fun x =>
            decide (x.fromBranch = m.fromBranch ∧ x.toBranch = m.toBranch)) = some m) := by
  intro l
  induction l with
  | nil => exact fun acc m h => Or.inl h
  | cons e es ih =>
    intro acc m h
    simp only [List.foldl_cons] at h
    rcases ih (keepFirstStep acc e) m h with h0 | ⟨hnone, hfind⟩
    · unfold keepFirstStep at h0
      split at h0
      · exact Or.inl h0
      · rcases List.mem_append.mp h0 with h1 | h2
        · exact Or.inl h1
        · have hme : m = e := List.mem_singleton.mp h2
          subst hme
          rename_i hany
          right
          refine ⟨?_, ?_⟩
          · intro x hx hpair
            exact hany (List.any_eq_true.mpr ⟨x, hx, by simpa using hpair⟩)
          · rw [List.find?_cons_of_pos _ (by simp)]
    · have hae : ¬ (e.fromBranch = m.fromBranch ∧ e.toBranch = m.toBranch) := by
        intro hpair
        have he_in : e ∈ keepFirstStep acc e := by
          unfold keepFirstStep
          split
          · rename_i hany
            rcases List.any_eq_true.mp hany with ⟨x, hx, hxe⟩
            have hxe' : x.fromBranch = e.fromBranch ∧ x.toBranch = e.toBranch := by
              simpa using hxe
            exact absurd ⟨hxe'.1.trans hpair.1, hxe'.2.trans hpair.2⟩
              (hnone x (keepFirstStep_subset hx))
          · exact List.mem_append.mpr (Or.inr (List.mem_singleton.mpr rfl))
        exact (hnone e he_in) hpair
      right
      refine ⟨?_, ?_⟩
      · intro x hx
        exact hnone x (keepFirstStep_subset hx)
      · rw [List.find?_cons_of_neg _ (by simpa using hae)]
        exact hfind

theorem keepFirst_pairwise :
    ∀ (l : List MergeEdge) (acc : List MergeEdge),
      acc.Pairwise (fun x y => ¬ (x.fromBranch = y.fromBranch ∧ x.toBranch = y.toBranch)) →
      (l.foldl keepFirstStep acc).Pairwise
        (fun x y => ¬ (x.fromBranch = y.fromBranch ∧ x.toBranch = y.toBranch)) := by
  intro l
  induction l with
  | nil => exact fun acc h => h
  | cons e es ih =>
    intro acc hacc
    simp only [List.foldl_cons]
    refine ih (keepFirstStep acc e) ?_
    unfold keepFirstStep
    split
    · exact hacc
    · rename_i hany
      rw [List.pairwise_append]
      refine ⟨hacc, List.pairwise_singleton _ _, ?_⟩
      intro x hx y hy
      have hye : y = e := List.mem_singleton.mp hy
      subst hye
      intro hpair
      exact hany (List.any_eq_true.mpr ⟨x, hx, by simpa using hpair⟩)

theorem keepFirst_coverage :
    ∀ (l : List MergeEdge) (acc : List MergeEdge) (m : MergeEdge), m ∈ l →
      ∃ x ∈ l.foldl keepFirstStep acc,
        x.fromBranch = m.fromBranch ∧ x.toBranch = m.toBranch := by
  intro l
  induction l with
  | nil => intro acc m h; cases h
  | cons e es ih =>
    intro acc m h
    simp only [List.foldl_cons]
    rcases List.mem_cons.mp h with h1 | h2
    · subst h1
      unfold keepFirstStep
      split
      · rename_i hany
        rcases List.any_eq_true.mp hany with ⟨x, hx, hxe⟩
        have hxe' : x.fromBranch = m.fromBranch ∧ x.toBranch = m.toBranch := by
          simpa using hxe
        exact ⟨x, keepFirst_acc_subset es acc hx, hxe'⟩
      · exact ⟨m, keepFirst_acc_subset es _ (List.mem_append.mpr (Or.inr (by simp))), rfl, rfl⟩
    · exact ih (keepFirstStep acc e) m h2

theorem mergeCandidate_shape {commits : JsMap CommitNodeInfo} {cur : String}
    {e : String × CommitNodeInfo} {m : MergeEdge}
    (h : mergeCandidate commits cur e = some m) :
    m.commit = e.1 ∧ m.mtype = "three-way" ∧ m.fromBranch ≠ m.toBranch ∧
    ∀ p1 p2, mapGet commits (e.2.parents.getD 0 "") = some p1 →
      mapGet commits (e.2.parents.getD 1 "") = some p2 →
      m.fromBranch = (fromCandidates e.2 p1 p2).headD "" ∧
      m.toBranch = (if (toCandidates e.2 p1 p2).contains cur = true then cur
        else (toCandidates e.2 p1 p2).headD "") ∧
      0 < (toCandidates e.2 p1 p2).length ∧ 0 < (fromCandidates e.2 p1 p2).length := by
  unfold mergeCandidate at h
  by_cases h2 : e.2.parents.length ≥ 2
  · rw [if_pos h2] at h
    rcases hp1 : mapGet commits (e.2.parents.getD 0 "") with _ | p1 <;>
      rcases hp2 : mapGet commits (e.2.parents.getD 1 "") with _ | p2 <;>
      rw [hp1, hp2] at h
    · simp at h
    · simp at h
    · simp at h
    · by_cases hc : (toCandidates e.2 p1 p2).length > 0 ∧ (fromCandidates e.2 p1 p2).length > 0
      · simp only [hc, if_true] at h
        by_cases hcontains : (toCandidates e.2 p1 p2).contains cur = true
        · rw [if_pos hcontains] at h
          by_cases hne : (fromCandidates e.2 p1 p2).headD "" ≠ cur
          · rw [if_pos hne] at h
            cases h
            refine ⟨rfl, rfl, hne, ?_⟩
            intro p1x p2x hp1x hp2x
            injection hp1x with hp1e
            injection hp2x with hp2e
            subst hp1e
            subst hp2e
            exact ⟨rfl, by rw [if_pos hcontains], hc.1, hc.2⟩
          · rw [if_neg hne] at h
            cases h
        · rw [if_neg hcontains] at h
          by_cases hne :
            (fromCandidates e.2 p1 p2).headD "" ≠ (toCandidates e.2 p1 p2).headD ""
          · rw [if_pos hne] at h
            cases h
            refine ⟨rfl, rfl, hne, ?_⟩
            intro p1x p2x hp1x hp2x
            injection hp1x with hp1e
            injection hp2x with hp2e
            subst hp1e
            subst hp2e
            exact ⟨rfl, by rw [if_neg hcontains], hc.1, hc.2⟩
          · rw [if_neg hne] at h
            cases h
      · simp only [hc, if_false] at h
        cases h
  · rw [if_neg h2] at h
    cases h

/-- C4 counterexample: the claim describes the from-candidates as
exactly parent 2's names not already claimed as "to", but the code
additionally drops a name that parent 1 also carries when the merge
commit itself does not carry it.  On the concrete map `exMergeMap`
the code yields `["feature"]` while the claim predicts
`["x", "feature"]`, and the resulting inferred merge differs. -/
theorem c4_merge_inference_counterexample :
    fromCandidates exNodeM exNodeP1 exNodeP2 = ["feature"] ∧
    fromCandidatesClaimed exNodeM exNodeP1 exNodeP2 = ["x", "feature"] ∧
    inferMerges exMergeMap "main" ≠ inferMergesClaimed exMergeMap "main" := by
  refine ⟨by decide, by decide, by decide⟩

/-- C4 (amended): for every merge vertex considered by inference, the
"to" candidates are exactly the names in the vertex's branch set that
parent 1 carries and parent 2 does not; the "from" candidates are the
names in parent 2's set that either parent 1 does not carry, or that
the vertex carries without their being "to" candidates; inference is
the per-vertex candidate computation followed by keeping only the
first (most-recent-row) occurrence per `(from,to)` pair; when both
candidate sets are non-empty the checked-out branch is preferred as
"to", pairs with `from = to` are skipped, and kept pairs are unique,
each being the first occurrence of its pair. -/
theorem c4_merge_inference_amended :
    (∀ (n p1 p2 : CommitNodeInfo) (b : String),
      b ∈ toCandidates n p1 p2 ↔
        b ∈ n.branches ∧ b ∈ p1.branches ∧ b ∉ p2.branches) ∧
    (∀ (n p1 p2 : CommitNodeInfo) (b : String),
      b ∈ fromCandidates n p1 p2 ↔
        b ∈ p2.branches ∧
          (b ∉ p1.branches ∨ (b ∈ n.branches ∧ b ∉ toCandidates n p1 p2))) ∧
    (∀ (commits : JsMap CommitNodeInfo) (cur : String),
      inferMerges commits cur =
        keepFirstByPair (commits.filterMap (mergeCandidate commits cur))) ∧
    (∀ (commits : JsMap CommitNodeInfo) (cur : String)
        (e : String × CommitNodeInfo) (m : MergeEdge),
      mergeCandidate commits cur e = some m →
        m.commit = e.1 ∧ m.fromBranch ≠ m.toBranch ∧
        ∀ p1 p2, mapGet commits (e.2.parents.getD 0 "") = some p1 →
          mapGet commits (e.2.parents.getD 1 "") = some p2 →
          m.fromBranch = (fromCandidates e.2 p1 p2).headD "" ∧
          m.toBranch = (if (toCandidates e.2 p1 p2).contains cur = true then cur
            else (toCandidates e.2 p1 p2).headD "") ∧
          0 < (toCandidates e.2 p1 p2).length ∧
          0 < (fromCandidates e.2 p1 p2).length) ∧
    (∀ (l : List MergeEdge) (m : MergeEdge), m ∈ keepFirstByPair l →
      l.find? (fun x =>
        decide (x.fromBranch = m.fromBranch ∧ x.toBranch = m.toBranch)) = some m) ∧
    (∀ (l : List MergeEdge), (keepFirstByPair l).Pairwise
      (fun x y => ¬ (x.fromBranch = y.fromBranch ∧ x.toBranch = y.toBranch))) ∧
    (∀ (l : List MergeEdge) (m : MergeEdge), m ∈ l →
      ∃ x ∈ keepFirstByPair l,
        x.fromBranch = m.fromBranch ∧ x.toBranch = m.toBranch) := by
  refine ⟨fun n p1 p2 b => mem_toCandidates, fun n p1 p2 b => mem_fromCandidates,
    ?_, ?_, ?_, ?_, ?_⟩
  · intro commits cur
    exact foldl_mergeStep_eq_keepFirst commits cur commits []
  · intro commits cur e m hm
    rcases mergeCandidate_shape hm with ⟨h1, _, h3, h4⟩
    exact ⟨h1, h3, h4⟩
  · intro l m hm
    rcases keepFirst_find_aux l [] m hm with h0 | ⟨_, hfind⟩
    · cases h0
    · exact hfind
  · intro l
    exact keepFirst_pairwise l [] (List.Pairwise.nil)
  · intro l m hm
    exact keepFirst_coverage l [] m hm

/-- Witness for C4 (amended): on a two-edge list with a duplicated
`(from,to)` pair, the kept edge is the first occurrence of its pair. -/
theorem c4_merge_inference_amended_witness :
    exEdgeA ∈ keepFirstByPair [exEdgeA, exEdgeB] ∧
    [exEdgeA, exEdgeB].find? (fun x =>
      decide (x.fromBranch = exEdgeA.fromBranch ∧ x.toBranch = exEdgeA.toBranch)) =
        some exEdgeA :=
  ⟨by decide, c4_merge_inference_amended.2.2.2.2.1 [exEdgeA, exEdgeB] exEdgeA (by decide)⟩

theorem buildIncrementally_ok_of_branch_ok {baseGraph : BranchGraphData}
    {rangeLogResult : Except Unit String} {bs : BranchSummary} {now : Int}
    {recorded : List MergeEdge} :
    ∀ e, buildBranchGraphIncrementally baseGraph rangeLogResult (.ok bs) now recorded ≠
      .error e := by
  intro e
  unfold buildBranchGraphIncrementally
  rcases baseGraph.dag with _ | baseDag
  · simp
  · rcases rangeLogResult with _ | logOutput
    · simp
    · simp only []
      split
      · simp
      · simp

theorem tryCandidates_ok_of_branch_ok {oracle : GitOracle} {storage : Option Storage}
    {repoId headHash : String} {bs : BranchSummary}
    (hbs : oracle.branchResult = .ok bs) :
    ∀ (hashes : List String) (e : Unit),
      tryCandidates oracle storage repoId headHash hashes ≠ .error e := by
  intro hashes
  induction hashes with
  | nil =>
    intro e
    simp [tryCandidates]
  | cons candidate rest ih =>
    intro e
    unfold tryCandidates
    split
    · exact ih e
    · split
      · exact ih e
      · split
        · exact ih e
        · split
          · exact ih e
          · split
            · rename_i e2 heq2
              rw [hbs] at heq2
              exact absurd heq2 (buildIncrementally_ok_of_branch_ok e2)
            · simp
            · exact ih e

theorem tryBuild_ok_of_branch_ok {oracle : GitOracle} {storage : Option Storage}
    {repoId headHash : String} {bs : BranchSummary}
    (hbs : oracle.branchResult = .ok bs) :
    ∀ e, tryBuildIncrementalBranchGraph oracle storage repoId headHash ≠ .error e := by
  intro e
  unfold tryBuildIncrementalBranchGraph
  rcases storage with _ | st
  · simp
  · simp only []
    split
    · simp
    · exact tryCandidates_ok_of_branch_ok hbs _ e

/-- C6 counterexample: a failing incremental range fetch does not make
the graph build return an empty snapshot — the manager falls back to a
full rebuild, which here succeeds with two nodes. -/
theorem c6_error_handling_counterexample :
    (buildBranchGraphIncrementally exBaseGraph (.error ())
      (.ok exBranchSummary) 0 []).toOption = some none ∧
    (getBranchGraph false none exOracle (some exStorage) "repo").toOption =
      some (buildFullBranchGraph (.ok exH2Log) (.ok exBranchSummary) 0 []) ∧
    ((buildFullBranchGraph (.ok exH2Log) (.ok exBranchSummary) 0 []).dag.map
      (fun d => d.nodes.length)) = some 2 ∧ (2 : Nat) ≠ 0 := by
  refine ⟨by decide, by decide, by decide, by decide⟩

theorem save_ok_of_update_ok {storage : Option Storage}
    {update : String → Except Unit Unit}
    (h : ∀ k, update k = .ok ()) (repoId headHash : String) :
    saveBranchGraphToStorage storage update repoId headHash = .ok () := by
  unfold saveBranchGraphToStorage
  rcases storage with _ | st
  · rfl
  · dsimp only
    split
    · rfl
    · split
      · rename_i e he
        rw [h] at he
        cases he
      · split
        · rfl
        · exact h _

/-- C6 (amended): a failure of the full rebuild's log fetch or branch
fetch yields the empty snapshot (`nodes: [], links: []`), never an
exception; a failure of the incremental range fetch makes the
incremental build return null, upon which the manager falls back to
the full rebuild; whenever the branch-summary collaborator does not
throw and the persistence write does not reject, `getBranchGraph`
returns a well-formed graph; but a rejected `storage.update` — awaited
outside any try/catch — propagates out of `getBranchGraph` even when
every git collaborator succeeds. -/
theorem c6_error_handling_amended :
    (∀ (branchResult : Except Unit BranchSummary) (now : Int)
        (recorded : List MergeEdge),
      buildFullBranchGraph (.error ()) branchResult now recorded = emptyBranchGraph) ∧
    (∀ (logStr : String) (now : Int) (recorded : List MergeEdge),
      buildFullBranchGraph (.ok logStr) (.error ()) now recorded = emptyBranchGraph) ∧
    emptyBranchGraph.dag = some { nodes := [], links := [] } ∧
    (∀ (baseGraph : BranchGraphData) (branchResult : Except Unit BranchSummary)
        (now : Int) (recorded : List MergeEdge),
      buildBranchGraphIncrementally baseGraph (.error ()) branchResult now recorded =
        .ok none) ∧
    (∀ (forceRefresh : Bool) (memCache : Option BranchGraphData) (oracle : GitOracle)
        (storage : Option Storage) (repoId : String) (bs : BranchSummary),
      oracle.branchResult = .ok bs →
      (∀ k, oracle.storageUpdate k = .ok ()) →
        ∃ g, getBranchGraph forceRefresh memCache oracle storage repoId = .ok g) ∧
    getBranchGraph false none exOracleBadSave (some exStorage) "repo" = .error () := by
  refine ⟨fun _ _ _ => rfl, fun _ _ _ => rfl, rfl, ?_, ?_, rfl⟩
  · intro baseGraph branchResult now recorded
    unfold buildBranchGraphIncrementally
    split <;> rfl
  · intro forceRefresh memCache oracle storage repoId bs hbs hupd
    have core : ∀ headHash : String,
        ∃ g, (match (if ¬ forceRefresh ∧ headHash ≠ "" then
            loadBranchGraphFromStorage storage repoId headHash else none) with
          | some persisted => (Except.ok persisted : Except Unit BranchGraphData)
          | none =>
            match (if ¬ forceRefresh ∧ headHash ≠ "" then
                tryBuildIncrementalBranchGraph oracle storage repoId headHash
              else .ok none) with
            | .error e => .error e
            | .ok (some incrementalGraph) =>
              match saveBranchGraphToStorage storage oracle.storageUpdate
                  repoId headHash with
              | .error e => .error e
              | .ok _ => .ok incrementalGraph
            | .ok none =>
              let fullGraph := buildFullBranchGraph oracle.logAll oracle.branchResult
                oracle.now oracle.recorded
              if headHash ≠ "" then
                match saveBranchGraphToStorage storage oracle.storageUpdate
                    repoId headHash with
                | .error e => .error e
                | .ok _ => .ok fullGraph
              else .ok fullGraph) = .ok g := by
      intro headHash
      have hs : saveBranchGraphToStorage storage oracle.storageUpdate repoId headHash
          = .ok () := save_ok_of_update_ok hupd _ _
      split
      · exact ⟨_, rfl⟩
      · split
        · rename_i e heq
          exfalso
          split at heq
          · exact tryBuild_ok_of_branch_ok hbs e heq
          · cases heq
        · rw [hs]
          exact ⟨_, rfl⟩
        · dsimp only
          split
          · rw [hs]
            exact ⟨_, rfl⟩
          · exact ⟨_, rfl⟩
    unfold getBranchGraph
    split
    · exact ⟨_, rfl⟩
    · exact core _

/-- Witness for C6 (amended): the oracle of the counterexample has a
non-throwing branch collaborator and an accepting persistence write,
so `getBranchGraph` returns a graph. -/
theorem c6_error_handling_amended_witness :
    exOracle.branchResult = .ok exBranchSummary ∧
    (∀ k, exOracle.storageUpdate k = .ok ()) ∧
    ∃ g, getBranchGraph false none exOracle (some exStorage) "repo" = .ok g :=
  ⟨rfl, fun _ => rfl,
   c6_error_handling_amended.2.2.2.2.1 false none exOracle (some exStorage) "repo"
    exBranchSummary rfl (fun _ => rfl)⟩

theorem mapHas_eq_false_iff {α : Type} {m : JsMap α} {k : String} :
    mapHas m k = false ↔ k ∉ m.map Prod.fst := by
  unfold mapHas
  constructor
  · intro h hmem
    rcases List.mem_map.mp hmem with ⟨e, he, hek⟩
    have : m.any (fun e => decide (e.1 = k)) = true :=
      List.any_eq_true.mpr ⟨e, he, by simp [hek]⟩
    rw [this] at h
    cases h
  · intro h
    by_contra hb
    have hany : m.any (fun e => decide (e.1 = k)) = true := by
      cases hx : m.any (fun e => decide (e.1 = k))
      · exact absurd hx hb
      · rfl
    rcases List.any_eq_true.mp hany with ⟨e, he, hek⟩
    exact h (List.mem_map.mpr ⟨e, he, by simpa using hek⟩)

theorem mapSet_fresh {α : Type} {m : JsMap α} {k : String} {v : α}
    (h : k ∉ m.map Prod.fst) : mapSet m k v = m ++ [(k, v)] := by
  unfold mapSet
  rw [if_neg]
  intro hc
  rw [mapHas_eq_false_iff.mpr h] at hc
  cases hc

theorem jsSetList_cons (x : String) (xs : List String) :
    jsSetList (x :: xs) = x :: (jsSetList xs).filter (fun y => y ≠ x) := rfl

theorem jsSetList_filter (p : String → Bool) :
    ∀ l : List String, jsSetList (l.filter p) = (jsSetList l).filter p := by
  intro l
  induction l with
  | nil => rfl
  | cons y ys ih =>
    by_cases hpy : p y = true
    · rw [List.filter_cons_of_pos hpy, jsSetList_cons, jsSetList_cons,
        List.filter_cons_of_pos hpy, ih, List.filter_filter, List.filter_filter]
      congr 1
      exact List.filter_congr fun a _ => Bool.and_comm _ _
    · have hpy2 : p y = false := by
        cases hx : p y
        · rfl
        · exact absurd hx hpy
      rw [List.filter_cons_of_neg (by simp [hpy2]), jsSetList_cons,
        List.filter_cons_of_neg (by simp [hpy2]), ih, List.filter_filter]
      refine List.filter_congr fun a _ => ?_
      by_cases hay : a = y
      · subst hay
        simp [hpy2]
      · simp [hay]

theorem jsSetList_idem : ∀ l : List String, jsSetList (jsSetList l) = jsSetList l := by
  intro l
  induction l with
  | nil => rfl
  | cons x xs ih =>
    have h1 : jsSetList (x :: xs) = x :: (jsSetList xs).filter (fun y => y ≠ x) := rfl
    rw [h1, jsSetList_cons, jsSetList_filter, ih, List.filter_filter]
    congr 1
    exact List.filter_congr fun a _ => by simp

theorem parseLines_eq_filterMap_aux (now : Int) :
    ∀ (lines : List String) (acc : JsMap CommitNodeInfo),
      ((acc.map Prod.fst) ++ lines.filterMap (lineKey now)).Nodup →
      lines.foldl
        (fun m line =>
          match parseRecord now line with
          | none => m
          | some (h, n) => mapSet m h n) acc =
        acc ++ lines.filterMap (parseRecord now) := by
  intro lines
  induction lines with
  | nil =>
    intro acc _
    simp
  | cons l ls ih =>
    intro acc hnd
    simp only [List.foldl_cons]
    rcases hrec : parseRecord now l with _ | p
    · have hlk : lineKey now l = none := by
        unfold lineKey
        rw [hrec]
        rfl
      rw [List.filterMap_cons_none hrec]
      simp only [hrec]
      refine ih acc ?_
      rwa [List.filterMap_cons_none hlk] at hnd
    · obtain ⟨k, v⟩ := p
      have hlk : lineKey now l = some k := by
        unfold lineKey
        rw [hrec]
        rfl
      rw [List.filterMap_cons_some hrec]
      simp only [hrec]
      rw [List.filterMap_cons_some hlk] at hnd
      have hknotin : k ∉ acc.map Prod.fst := by
        intro hk
        have hdisj := List.disjoint_of_nodup_append hnd
        exact hdisj hk (List.mem_cons_self k _)
      rw [mapSet_fresh hknotin]
      have hnd2 : (((acc ++ [(k, v)]).map Prod.fst) ++ ls.filterMap (lineKey now)).Nodup := by
        rw [List.map_append]
        rw [List.append_assoc]
        simpa using hnd
      rw [ih (acc ++ [(k, v)]) hnd2, List.append_assoc]
      rfl

theorem parseLines_eq_filterMap {now : Int} {lines : List String}
    (hnd : (lines.filterMap (lineKey now)).Nodup) :
    parseLines now lines = lines.filterMap (parseRecord now) := by
  have := parseLines_eq_filterMap_aux now lines [] (by simpa using hnd)
  simpa [parseLines] using this

theorem parseLines_keys {now : Int} {lines : List String}
    (hnd : (lines.filterMap (lineKey now)).Nodup) :
    (parseLines now lines).map Prod.fst = lines.filterMap (lineKey now) := by
  rw [parseLines_eq_filterMap hnd, List.map_filterMap]
  rfl

theorem parseLines_entry_props {now : Int} {lines : List String} {k : String}
    {n : CommitNodeInfo} (h : (k, n) ∈ parseLines now lines) :
    n.hash = k ∧ jsSetList n.branches = n.branches := by
  rcases parseLines_mem h with ⟨line, _, hrec⟩
  have hs := parseRecord_spec hrec
  refine ⟨hs.2.2.2.1, ?_⟩
  have hb := hs.2.2.2.2.2.2.1
  rw [hb, jsSetList_idem]

theorem foldl_addBaseNode_fresh :
    ∀ (nodes : List DagNode) (m : JsMap CommitNodeInfo),
      ((m.map Prod.fst) ++ nodes.map DagNode.hash).Nodup →
      nodes.foldl addBaseNode m =
        m ++ nodes.map (fun node => (node.hash, nodeToInfo node)) := by
  intro nodes
  induction nodes with
  | nil =>
    intro m _
    simp
  | cons node rest ih =>
    intro m hnd
    simp only [List.foldl_cons, List.map_cons]
    have hfresh : node.hash ∉ m.map Prod.fst := by
      have hdisj := List.disjoint_of_nodup_append hnd
      intro hk
      exact hdisj hk (by simp)
    have hhas : mapHas m node.hash = false := mapHas_eq_false_iff.mpr hfresh
    have hstep : addBaseNode m node = m ++ [(node.hash, nodeToInfo node)] := by
      unfold addBaseNode
      rw [if_neg (by simp [hhas])]
      exact mapSet_fresh hfresh
    rw [hstep]
    have hnd2 : (((m ++ [(node.hash, nodeToInfo node)]).map Prod.fst) ++
        rest.map DagNode.hash).Nodup := by
      rw [List.map_append, List.append_assoc]
      simpa using hnd
    rw [ih _ hnd2, List.append_assoc]
    rfl

theorem recon_map (m : JsMap CommitNodeInfo)
    (hprops : ∀ e ∈ m, e.2.hash = e.1 ∧ jsSetList e.2.branches = e.2.branches) :
    (m.map dagNodeOf).map (fun node => (node.hash, nodeToInfo node)) = m := by
  rw [List.map_map]
  have h2 : ∀ e ∈ m, ((fun node => (node.hash, nodeToInfo node)) ∘ dagNodeOf) e = e := by
    intro e he
    rcases hprops e he with ⟨hh, hb⟩
    show (e.2.hash, (⟨e.2.hash, e.2.parents, e.2.timestamp,
      jsSetList e.2.branches⟩ : CommitNodeInfo)) = e
    rw [hb]
    show (e.2.hash, e.2) = e
    rw [hh]
  rw [List.map_congr_left h2]
  simp

theorem enforce_id_of_le {m : JsMap CommitNodeInfo}
    (h : m.length ≤ BRANCH_GRAPH_MAX_COMMITS) : enforceCommitLimit m = m := by
  unfold enforceCommitLimit
  rw [enforce_eq_take, List.take_of_length_le h]

theorem buildFull_red (logRaw : String) (bs : BranchSummary) (now : Int)
    (recorded : List MergeEdge) :
    buildFullBranchGraph (.ok logRaw) (.ok bs) now recorded =
      (if (enforceCommitLimit (parseGitLogToCommitMap now logRaw)).length = 0 then
        { branches := bs.all.filter (fun b => !(jsStartsWith "remotes/" b)),
          merges := [],
          currentBranch := if bs.current ≠ "" then some bs.current else none,
          dag := some { nodes := [], links := [] } }
      else
        buildBranchGraphFromCommitMap
          (enforceCommitLimit (parseGitLogToCommitMap now logRaw)) bs recorded) := rfl

theorem buildIncrementally_red (baseGraph : BranchGraphData) (nodes : List DagNode)
    (links : List DagLink) (hd : baseGraph.dag = some ⟨nodes, links⟩)
    (rangeRaw : String) (bs : BranchSummary) (now : Int) (recorded : List MergeEdge) :
    buildBranchGraphIncrementally baseGraph (.ok rangeRaw) (.ok bs) now recorded =
      (if (nodes.foldl addBaseNode (parseGitLogToCommitMap now rangeRaw)).length = 0 then
        .ok (some { baseGraph with
          branches := bs.all.filter (fun b => !(jsStartsWith "remotes/" b)),
          currentBranch :=
            if bs.current ≠ "" then some bs.current else baseGraph.currentBranch })
      else
        .ok (some (buildBranchGraphFromCommitMap
          (enforceCommitLimit
            (nodes.foldl addBaseNode (parseGitLogToCommitMap now rangeRaw)))
          bs recorded))) := by
  unfold buildBranchGraphIncrementally
  rw [hd]

theorem buildFull_dag (logRaw : String) (bs : BranchSummary) (now : Int)
    (recorded : List MergeEdge)
    (hid : enforceCommitLimit (parseGitLogToCommitMap now logRaw) =
      parseGitLogToCommitMap now logRaw) :
    (buildFullBranchGraph (.ok logRaw) (.ok bs) now recorded).dag =
      some { nodes := (parseGitLogToCommitMap now logRaw).map dagNodeOf,
             links := (parseGitLogToCommitMap now logRaw).flatMap dagLinksOf } := by
  rw [buildFull_red, hid]
  by_cases h0 : (parseGitLogToCommitMap now logRaw).length = 0
  · rw [if_pos h0]
    have hnil : parseGitLogToCommitMap now logRaw = [] :=
      List.eq_nil_of_length_eq_zero h0
    rw [hnil]
    rfl
  · rw [if_neg h0]
    rfl

/-- C1 (amended): the incremental build from the cached H1 snapshot
equals the full rebuild at H2 whenever the H2 full log consists of
exactly the range log's lines followed by the H1 full log's lines
(same lines, including identical ref decorations), all retained hashes
are pairwise distinct, the range contributes at least one commit, and
the combined count stays within `MAX_COMMITS` (no eviction). -/
theorem c1_incremental_equivalence_amended
    (now : Int) (rangeRaw h1Raw fullH2Raw : String) (bs : BranchSummary)
    (recorded : List MergeEdge)
    (hlines : logLines fullH2Raw = logLines rangeRaw ++ logLines h1Raw)
    (hkeys : ((logLines rangeRaw ++ logLines h1Raw).filterMap (lineKey now)).Nodup)
    (hne : parseGitLogToCommitMap now rangeRaw ≠ [])
    (hsize : (parseGitLogToCommitMap now rangeRaw).length +
      (parseGitLogToCommitMap now h1Raw).length ≤ BRANCH_GRAPH_MAX_COMMITS) :
    buildBranchGraphIncrementally
        (buildFullBranchGraph (.ok h1Raw) (.ok bs) now recorded)
        (.ok rangeRaw) (.ok bs) now recorded =
      .ok (some (buildFullBranchGraph (.ok fullH2Raw) (.ok bs) now recorded)) := by
  have hkApp : ((logLines rangeRaw).filterMap (lineKey now) ++
      (logLines h1Raw).filterMap (lineKey now)).Nodup := by
    rw [← List.filterMap_append]
    exact hkeys
  have hkR := hkApp.of_append_left
  have hkH := hkApp.of_append_right
  have hA : parseGitLogToCommitMap now fullH2Raw =
      parseGitLogToCommitMap now rangeRaw ++ parseGitLogToCommitMap now h1Raw := by
    unfold parseGitLogToCommitMap
    rw [hlines, parseLines_eq_filterMap hkeys, List.filterMap_append,
      ← parseLines_eq_filterMap hkR, ← parseLines_eq_filterMap hkH]
  have hsizeH : (parseGitLogToCommitMap now h1Raw).length ≤ BRANCH_GRAPH_MAX_COMMITS := by
    omega
  have henfH : enforceCommitLimit (parseGitLogToCommitMap now h1Raw) =
      parseGitLogToCommitMap now h1Raw := enforce_id_of_le hsizeH
  have hbase := buildFull_dag h1Raw bs now recorded henfH
  have hkeysR : (parseGitLogToCommitMap now rangeRaw).map Prod.fst =
      (logLines rangeRaw).filterMap (lineKey now) := parseLines_keys hkR
  have hkeysH : (parseGitLogToCommitMap now h1Raw).map Prod.fst =
      (logLines h1Raw).filterMap (lineKey now) := parseLines_keys hkH
  have hpropsH : ∀ e ∈ parseGitLogToCommitMap now h1Raw,
      e.2.hash = e.1 ∧ jsSetList e.2.branches = e.2.branches := by
    intro e he
    exact parseLines_entry_props (k := e.1) (n := e.2) he
  have hhashes : ((parseGitLogToCommitMap now h1Raw).map dagNodeOf).map DagNode.hash =
      (parseGitLogToCommitMap now h1Raw).map Prod.fst := by
    rw [List.map_map]
    exact List.map_congr_left (fun e he => (hpropsH e he).1)
  have hndRH : ((parseGitLogToCommitMap now rangeRaw).map Prod.fst ++
      ((parseGitLogToCommitMap now h1Raw).map dagNodeOf).map DagNode.hash).Nodup := by
    rw [hkeysR, hhashes, hkeysH]
    exact hkApp
  have hfold := foldl_addBaseNode_fresh ((parseGitLogToCommitMap now h1Raw).map dagNodeOf)
    (parseGitLogToCommitMap now rangeRaw) hndRH
  have hrecon := recon_map (parseGitLogToCommitMap now h1Raw) hpropsH
  have hcombined : ((parseGitLogToCommitMap now h1Raw).map dagNodeOf).foldl addBaseNode
      (parseGitLogToCommitMap now rangeRaw) =
      parseGitLogToCommitMap now rangeRaw ++ parseGitLogToCommitMap now h1Raw := by
    rw [hfold, hrecon]
  rw [buildIncrementally_red _ _ _ hbase, hcombined]
  have hlen : (parseGitLogToCommitMap now rangeRaw ++
      parseGitLogToCommitMap now h1Raw).length ≠ 0 := by
    rw [List.length_append]
    have h1 : (parseGitLogToCommitMap now rangeRaw).length ≠ 0 := by
      intro h0
      exact hne (List.eq_nil_of_length_eq_zero h0)
    omega
  have hsize2 : (parseGitLogToCommitMap now rangeRaw ++
      parseGitLogToCommitMap now h1Raw).length ≤ BRANCH_GRAPH_MAX_COMMITS := by
    rw [List.length_append]
    omega
  rw [if_neg hlen, enforce_id_of_le hsize2, buildFull_red fullH2Raw bs now recorded,
    hA, enforce_id_of_le hsize2, if_neg hlen]

/-- C1 counterexample: after a plain HEAD advance `aaa → bbb` the full
log at H2 no longer decorates `aaa` with `main`, but the cached H1
snapshot still does; the incremental build keeps the stale branch set,
so its node list differs from the full rebuild's. -/
theorem c1_incremental_equivalence_counterexample :
    (((buildBranchGraphIncrementally exBaseGraph (.ok exRangeLog)
        (.ok exBranchSummary) 0 []).toOption.bind id).bind (fun g => g.dag)).map
      (fun d => d.nodes.map DagNode.branches) = some [["main"], ["main"]] ∧
    ((buildFullBranchGraph (.ok exH2Log) (.ok exBranchSummary) 0 []).dag.map
      (fun d => d.nodes.map DagNode.branches)) = some [["main"], []] ∧
    ([["main"], ["main"]] : List (List String)) ≠ [["main"], []] := by
  refine ⟨by decide, by decide, by decide⟩

/-- Witness for C1 (amended): on the concrete one-commit advance with
unchanged decorations, the incremental build equals the full rebuild. -/
theorem c1_incremental_equivalence_amended_witness :
    (logLines exH2ConsistentLog = logLines exRangeLog ++ logLines exH1Log ∧
      ((logLines exRangeLog ++ logLines exH1Log).filterMap (lineKey 0)).Nodup ∧
      parseGitLogToCommitMap 0 exRangeLog ≠ [] ∧
      (parseGitLogToCommitMap 0 exRangeLog).length +
        (parseGitLogToCommitMap 0 exH1Log).length ≤ BRANCH_GRAPH_MAX_COMMITS) ∧
    buildBranchGraphIncrementally
        (buildFullBranchGraph (.ok exH1Log) (.ok exBranchSummary) 0 [])
        (.ok exRangeLog) (.ok exBranchSummary) 0 [] =
      .ok (some (buildFullBranchGraph (.ok exH2ConsistentLog)
        (.ok exBranchSummary) 0 [])) :=
  ⟨⟨by decide, by decide, by decide, by decide⟩,
   c1_incremental_equivalence_amended 0 exRangeLog exH1Log exH2ConsistentLog
     exBranchSummary [] (by decide) (by decide) (by decide) (by decide)⟩

end GitSvc

namespace GraphView

theorem listModify_length {α : Type} (l : List α) (i : Nat) (f : α → α) :
    (listModify l i f).length = l.length := by
  unfold listModify
  cases h : l.get? i
  · rfl
  · simp

theorem listModify_get_ne {α : Type} {l : List α} {i j : Nat} (f : α → α) (h : i ≠ j) :
    (listModify l i f).get? j = l.get? j := by
  unfold listModify
  cases hgi : l.get? i
  · rfl
  · simp [List.get?_eq_getElem?, List.getElem?_set_ne h]

theorem listModify_get_eq {α : Type} {l : List α} {i : Nat} {a : α} (f : α → α)
    (h : l.get? i = some a) : (listModify l i f).get? i = some (f a) := by
  unfold listModify
  rw [h]
  obtain ⟨hlt, _⟩ := List.get?_eq_some.mp h
  simp [List.get?_eq_getElem?, List.getElem?_set_self, hlt]

theorem addToBranch_onBranch {v : Vrtx} {bIdx x : Nat} {c : Nat}
    (h : v.onBranch = some c) : (v.addToBranch bIdx x).onBranch = some c := by
  unfold Vrtx.addToBranch
  rw [if_neg (by simp [h])]
  exact h

theorem registerUnavailablePoint_onBranch (v : Vrtx) (x : Nat) (conn : Option Int)
    (bIdx : Nat) : (v.registerUnavailablePoint x conn bIdx).onBranch = v.onBranch := by
  unfold Vrtx.registerUnavailablePoint
  split <;> rfl

theorem registerParentProcessed_onBranch (v : Vrtx) :
    v.registerParentProcessed.onBranch = v.onBranch := rfl

theorem bindingOf_modifyVertex {st : LayoutState} {i j : Nat} {b : Nat}
    {f : Vrtx → Vrtx} (hf : ∀ v c, v.onBranch = some c → (f v).onBranch = some c)
    (h : bindingOf st j = some b) : bindingOf (modifyVertex st i f) j = some b := by
  unfold bindingOf at h ⊢
  unfold modifyVertex
  by_cases hij : i = j
  · subst hij
    cases hgi : st.vertices.get? i with
    | none =>
      rw [hgi] at h
      cases h
    | some a =>
      rw [hgi] at h
      have ha : a.onBranch = some b := h
      show ((listModify st.vertices i f).get? i).bind Vrtx.onBranch = some b
      rw [listModify_get_eq f hgi]
      exact hf a b ha
  · show ((listModify st.vertices i f).get? j).bind Vrtx.onBranch = some b
    rw [listModify_get_ne f hij]
    exact h

theorem bindingOf_branchAddLine (st : LayoutState) (bIdx : Nat) (p1 p2 : Point)
    (c l : Bool) (j : Nat) :
    bindingOf (branchAddLine st bIdx p1 p2 c l) j = bindingOf st j := rfl

theorem bindingOf_regStep {st : LayoutState} {bIdx i x j b : Nat} {p1 p2 : Point}
    {c lf : Bool} {conn : Option Int} (h : bindingOf st j = some b) :
    bindingOf (modifyVertex (branchAddLine st bIdx p1 p2 c lf) i
      (fun v => v.registerUnavailablePoint x conn bIdx)) j = some b := by
  refine bindingOf_modifyVertex (fun v c2 hv => ?_) ?_
  · rw [registerUnavailablePoint_onBranch]
    exact hv
  · rw [bindingOf_branchAddLine]
    exact h

theorem bindingOf_mergeWalk (pidN bIdx : Nat) (vc : Bool) :
    ∀ (fuel : Nat) (st : LayoutState) (lp : Point) (i j : Nat) (b : Nat),
      bindingOf st j = some b →
      bindingOf (mergeWalk pidN bIdx vc fuel st lp i).1 j = some b := by
  intro fuel
  induction fuel with
  | zero => exact fun st lp i j b h => h
  | succ fuel ih =>
    intro st lp i j b h
    unfold mergeWalk
    dsimp only
    split
    · split <;> (try split) <;> (try split) <;>
        first
          | exact bindingOf_regStep h
          | exact ih _ _ _ j b (bindingOf_regStep h)
    · exact h

theorem bindingOf_normalWalk (bIdx : Nat) :
    ∀ (fuel : Nat) (st : LayoutState) (cursor : Nat) (pid : Option Int) (lp : Point)
      (i j : Nat) (b : Nat),
      bindingOf st j = some b →
      bindingOf (normalWalk bIdx fuel st cursor pid lp i).1 j = some b := by
  intro fuel
  induction fuel with
  | zero => exact fun st cursor pid lp i j b h => h
  | succ fuel ih =>
    intro st cursor pid lp i j b h
    unfold normalWalk
    dsimp only
    split
    · split <;> (try split) <;> (try split) <;>
        first
          | exact bindingOf_regStep h
          | exact bindingOf_modifyVertex (fun v c hv => addToBranch_onBranch hv)
              (bindingOf_modifyVertex
                (fun v c hv => (registerParentProcessed_onBranch v).trans hv)
                (bindingOf_regStep h))
          | exact ih _ _ _ _ _ j b (bindingOf_regStep h)
          | exact ih _ _ _ _ _ j b
              (bindingOf_modifyVertex (fun v c hv => addToBranch_onBranch hv)
                (bindingOf_modifyVertex
                  (fun v c hv => (registerParentProcessed_onBranch v).trans hv)
                  (bindingOf_regStep h)))
    · exact h

theorem bindingOf_dpMerge {st : LayoutState} {i j : Nat} {b : Nat}
    (h : bindingOf st j = some b) : bindingOf (dpMerge st i) j = some b := by
  unfold dpMerge
  dsimp only
  split
  · split
    · exact bindingOf_modifyVertex
        (fun v c hv => (registerParentProcessed_onBranch v).trans hv)
        (bindingOf_mergeWalk _ _ _ _ _ _ _ j b h)
    · exact bindingOf_mergeWalk _ _ _ _ _ _ _ j b h
  · exact h

theorem bindingOf_dpPre {st : LayoutState} {i j : Nat} {b : Nat}
    (h : bindingOf st j = some b) : bindingOf (dpPre st i) j = some b :=
  bindingOf_modifyVertex
    (fun v _ hv => (registerUnavailablePoint_onBranch v _ _ _).trans hv)
    (bindingOf_modifyVertex (fun _ _ hv => addToBranch_onBranch hv) h)

theorem bindingOf_dpNormal {st : LayoutState} {i j : Nat} {b : Nat}
    (h : bindingOf st j = some b) : bindingOf (dpNormal st i) j = some b := by
  have hw : bindingOf (dpWalk st i).1 j = some b := by
    unfold dpWalk
    exact bindingOf_normalWalk _ _ _ _ _ _ _ j b (bindingOf_dpPre h)
  unfold dpNormal
  dsimp only
  split
  · exact bindingOf_modifyVertex
      (fun v c hv => (registerParentProcessed_onBranch v).trans hv) hw
  · exact hw

theorem bindingOf_determinePath {st : LayoutState} {i j : Nat} {b : Nat}
    (h : bindingOf st j = some b) : bindingOf (determinePath st i) j = some b := by
  unfold determinePath
  split
  · exact bindingOf_dpMerge h
  · exact bindingOf_dpNormal h

theorem bindingOf_mainLoop :
    ∀ (fuel : Nat) (st : LayoutState) (i j : Nat) (b : Nat),
      bindingOf st j = some b → bindingOf (mainLoop fuel st i) j = some b := by
  intro fuel
  induction fuel with
  | zero => exact fun st i j b h => h
  | succ fuel ih =>
    intro st i j b h
    unfold mainLoop
    dsimp only
    split
    · split
      · exact ih _ _ j b (bindingOf_determinePath h)
      · exact ih _ _ j b h
    · exact h

theorem get_concat_length {α : Type} :
    ∀ (l : List α) (a : α), (l ++ [a]).get? l.length = some a := by
  intro l a
  induction l with
  | nil => rfl
  | cons x xs ih => exact ih

theorem addToBranch_isSome (v : Vrtx) (bIdx x : Nat) :
    ((v.addToBranch bIdx x).onBranch).isSome = true := by
  unfold Vrtx.addToBranch
  split
  · rfl
  · rename_i h
    cases hv : v.onBranch with
    | none => exact absurd hv h
    | some c => rfl

theorem bind_double_isSome {vs : List Vrtx} {i : Nat} {f g : Vrtx → Vrtx}
    (hi : i < vs.length)
    (hfg : ∀ v, ((g (f v)).onBranch).isSome = true) :
    (((listModify (listModify vs i f) i g).get? i).bind Vrtx.onBranch).isSome = true := by
  have hgi : vs.get? i = some (vs.get ⟨i, hi⟩) := List.get?_eq_some.mpr ⟨hi, rfl⟩
  have h1 : (listModify vs i f).get? i = some (f (vs.get ⟨i, hi⟩)) :=
    listModify_get_eq f hgi
  have h2 : (listModify (listModify vs i f) i g).get? i
      = some (g (f (vs.get ⟨i, hi⟩))) := listModify_get_eq g h1
  rw [h2]
  exact hfg _

theorem sweepStep_binds {st : LayoutState} {i : Nat} (hi : i < st.vertices.length) :
    (bindingOf (sweepStep st i) i).isSome = true := by
  unfold sweepStep
  dsimp only
  by_cases hb : (getVertex st i).onBranch = none
  · rw [if_pos hb]
    exact bind_double_isSome hi (fun v => by
      rw [registerUnavailablePoint_onBranch]
      exact addToBranch_isSome _ _ _)
  · rw [if_neg hb]
    unfold bindingOf
    cases hgi : st.vertices.get? i with
    | none =>
      exact absurd hgi (by
        rw [List.get?_eq_getElem?]
        simp [List.getElem?_eq_getElem hi])
    | some a =>
      have hva : getVertex st i = a := by
        unfold getVertex
        rw [hgi]
        rfl
      rw [hva] at hb
      cases ha : a.onBranch with
      | none => exact absurd ha hb
      | some c => simp [ha]

theorem sweepStep_length (st : LayoutState) (i : Nat) :
    (sweepStep st i).vertices.length = st.vertices.length := by
  unfold sweepStep
  dsimp only
  split
  · exact (listModify_length _ _ _).trans (listModify_length _ _ _)
  · rfl

theorem bindingOf_sweepStep {st : LayoutState} {i j : Nat} {b : Nat}
    (h : bindingOf st j = some b) : bindingOf (sweepStep st i) j = some b := by
  unfold sweepStep
  dsimp only
  split
  · exact bindingOf_modifyVertex
      (fun v c hv => (registerUnavailablePoint_onBranch v _ _ _).trans hv)
      (bindingOf_modifyVertex (fun v c hv => addToBranch_onBranch hv) h)
  · exact h

theorem sweepFrom_length :
    ∀ (fuel : Nat) (st : LayoutState) (i : Nat),
      (sweepFrom fuel st i).vertices.length = st.vertices.length := by
  intro fuel
  induction fuel with
  | zero => intro st i; rfl
  | succ fuel ih =>
    intro st i
    unfold sweepFrom
    split
    · exact (ih _ _).trans (sweepStep_length _ _)
    · rfl

theorem completionSweep_length (st : LayoutState) :
    (completionSweep st).vertices.length = st.vertices.length :=
  sweepFrom_length _ _ _

theorem bindingOf_sweepFrom :
    ∀ (fuel : Nat) (st : LayoutState) (i j : Nat) (b : Nat),
      bindingOf st j = some b → bindingOf (sweepFrom fuel st i) j = some b := by
  intro fuel
  induction fuel with
  | zero => exact fun st i j b h => h
  | succ fuel ih =>
    intro st i j b h
    unfold sweepFrom
    split
    · exact ih _ _ j b (bindingOf_sweepStep h)
    · exact h

theorem sweepFrom_total :
    ∀ (fuel : Nat) (st : LayoutState) (i j : Nat),
      i ≤ j → j < st.vertices.length → st.vertices.length ≤ i + fuel →
      (bindingOf (sweepFrom fuel st i) j).isSome = true := by
  intro fuel
  induction fuel with
  | zero =>
    intro st i j hij hj hle
    exact absurd (Nat.lt_of_lt_of_le hj hle) (Nat.not_lt.mpr hij)
  | succ fuel ih =>
    intro st i j hij hj hle
    unfold sweepFrom
    rw [if_pos (Nat.lt_of_le_of_lt hij hj)]
    by_cases hij2 : i = j
    · subst hij2
      obtain ⟨b, hb⟩ := Option.isSome_iff_exists.mp (sweepStep_binds hj)
      rw [bindingOf_sweepFrom fuel (sweepStep st i) (i + 1) i b hb]
      rfl
    · exact ih (sweepStep st i) (i + 1) j (Nat.lt_of_le_of_ne hij hij2)
        (by rw [sweepStep_length]; exact hj)
        (by rw [sweepStep_length]; omega)

theorem completionSweep_total {st : LayoutState} {j : Nat}
    (hj : j < st.vertices.length) :
    (bindingOf (completionSweep st) j).isSome = true :=
  sweepFrom_total st.vertices.length st 0 j (Nat.zero_le j) hj (by omega)

/-- C2: after the main `determinePath` loop and the completion sweep,
every vertex of the layout is bound to a Branch; a Vertex binding is
write-once (`addToBranch` on an already-bound vertex is the identity),
and every pass of the pipeline (`determinePath`, the outer loop, the
completion sweep) preserves an existing binding unchanged. -/
theorem c2_total_binding :
    (∀ (input : List InputNode) (cur : Option String) (j : Nat),
        j < (buildGraphDataLayout input cur).vertices.length →
        (bindingOf (buildGraphDataLayout input cur) j).isSome = true) ∧
    (∀ (v : Vrtx) (bIdx x c : Nat), v.onBranch = some c → v.addToBranch bIdx x = v) ∧
    (∀ (st : LayoutState) (i j b : Nat), bindingOf st j = some b →
        bindingOf (determinePath st i) j = some b) ∧
    (∀ (fuel : Nat) (st : LayoutState) (i j b : Nat), bindingOf st j = some b →
        bindingOf (mainLoop fuel st i) j = some b) ∧
    (∀ (st : LayoutState) (j b : Nat), bindingOf st j = some b →
        bindingOf (completionSweep st) j = some b) := by
  refine ⟨?_, ?_, ?_, ?_, ?_⟩
  · intro input cur j hj
    have hj2 : j < (mainLoop (mainLoopFuel (layoutInit input cur))
        (layoutInit input cur) 0).vertices.length := by
      rw [← completionSweep_length]
      exact hj
    exact completionSweep_total hj2
  · intro v bIdx x c hv
    unfold Vrtx.addToBranch
    rw [if_neg (by simp [hv])]
  · exact fun st i j b h => bindingOf_determinePath h
  · exact fun fuel st i j b h => bindingOf_mainLoop fuel st i j b h
  · exact fun st j b h => bindingOf_sweepFrom _ _ _ j b h

/-- C2 witness: on the three-commit chain every row ends bound, and
`addToBranch` leaves an already-bound vertex untouched. -/
theorem c2_total_binding_witness :
    ((bindingOf (buildGraphDataLayout exLinearInput none) 0).isSome = true ∧
      (bindingOf (buildGraphDataLayout exLinearInput none) 2).isSome = true) ∧
    Vrtx.addToBranch { (default : Vrtx) with onBranch := some 4 } 7 9
      = { (default : Vrtx) with onBranch := some 4 } :=
  ⟨⟨c2_total_binding.1 exLinearInput none 0 (by decide),
    c2_total_binding.1 exLinearInput none 2 (by decide)⟩,
   c2_total_binding.2.1 _ 7 9 4 rfl⟩

/-- C9: the layout engine is a pure function of its input — two runs on
equal inputs with the same current-branch marker produce identical
per-vertex `(x, colorIndex)` assignments and identical per-Branch Line
lists. -/
theorem c9_layout_determinism :
    ∀ (input1 input2 : List InputNode) (cur1 cur2 : Option String),
      input1 = input2 → cur1 = cur2 →
      layoutAssignments (buildGraphDataLayout input1 cur1)
          = layoutAssignments (buildGraphDataLayout input2 cur2) ∧
      layoutLines (buildGraphDataLayout input1 cur1)
          = layoutLines (buildGraphDataLayout input2 cur2) := by
  intro input1 input2 cur1 cur2 h1 h2
  subst h1
  subst h2
  exact ⟨rfl, rfl⟩

/-- C9 witness: two runs on the three-commit chain agree. -/
theorem c9_layout_determinism_witness :
    layoutAssignments (buildGraphDataLayout exLinearInput (some "main"))
        = layoutAssignments (buildGraphDataLayout exLinearInput (some "main")) ∧
    layoutLines (buildGraphDataLayout exLinearInput (some "main"))
        = layoutLines (buildGraphDataLayout exLinearInput (some "main")) :=
  c9_layout_determinism exLinearInput exLinearInput (some "main") (some "main") rfl rfl

theorem gacFind_spec (startAt : Nat) :
    ∀ (ac : List Nat) (i : Nat), gacFind startAt ac = some i →
      i < ac.length ∧ (∀ v, ac.get? i = some v → v < startAt) ∧
      (∀ k, k < i → ∀ v, ac.get? k = some v → startAt ≤ v) := by
  intro ac
  induction ac with
  | nil => intro i h; cases h
  | cons a rest ih =>
    intro i h
    unfold gacFind at h
    by_cases hc : startAt > a
    · rw [if_pos hc] at h
      cases h
      refine ⟨Nat.succ_pos _, ?_, ?_⟩
      · intro v hv
        cases hv
        exact hc
      · intro k hk
        exact absurd hk (Nat.not_lt_zero k)
    · rw [if_neg hc] at h
      cases hg : gacFind startAt rest with
      | none =>
        rw [hg] at h
        cases h
      | some n =>
        rw [hg, Option.map_some'] at h
        cases h
        obtain ⟨h1, h2, h3⟩ := ih n hg
        refine ⟨Nat.succ_lt_succ h1, ?_, ?_⟩
        · intro v hv
          exact h2 v hv
        · intro k hk v hv
          cases k with
          | zero =>
            cases hv
            exact Nat.le_of_not_lt hc
          | succ k2 => exact h3 k2 (Nat.lt_of_succ_lt_succ hk) v hv

theorem gacFind_none (startAt : Nat) :
    ∀ (ac : List Nat), gacFind startAt ac = none →
      ∀ k v, ac.get? k = some v → startAt ≤ v := by
  intro ac
  induction ac with
  | nil => intro _ k v hv; cases hv
  | cons a rest ih =>
    intro h k v hv
    unfold gacFind at h
    by_cases hc : startAt > a
    · rw [if_pos hc] at h
      cases h
    · rw [if_neg hc] at h
      cases k with
      | zero =>
        cases hv
        exact Nat.le_of_not_lt hc
      | succ k2 =>
        refine ih ?_ k2 v hv
        cases hg : gacFind startAt rest with
        | none => rfl
        | some n =>
          rw [hg, Option.map_some'] at h
          cases h

theorem getAvailableColour_some {startAt : Nat} {ac : List Nat} {i : Nat}
    (h : gacFind startAt ac = some i) : getAvailableColour startAt ac = (i, ac) := by
  unfold getAvailableColour
  rw [h]

theorem getAvailableColour_none {startAt : Nat} {ac : List Nat}
    (h : gacFind startAt ac = none) :
    getAvailableColour startAt ac = (ac.length, ac ++ [0]) := by
  unfold getAvailableColour
  rw [h]

theorem getAvailableColour_fst_lt (startAt : Nat) (ac : List Nat) :
    (getAvailableColour startAt ac).1 < (getAvailableColour startAt ac).2.length := by
  cases hg : gacFind startAt ac with
  | none =>
    rw [getAvailableColour_none hg]
    simp
  | some i =>
    rw [getAvailableColour_some hg]
    exact (gacFind_spec startAt ac i hg).1

theorem normalWalk_availableColors (bIdx : Nat) :
    ∀ (fuel : Nat) (st : LayoutState) (cursor : Nat) (pid : Option Int) (lp : Point)
      (i : Nat),
      (normalWalk bIdx fuel st cursor pid lp i).1.availableColors
        = st.availableColors := by
  intro fuel
  induction fuel with
  | zero => intro st cursor pid lp i; rfl
  | succ fuel ih =>
    intro st cursor pid lp i
    unfold normalWalk
    dsimp only
    split
    · split <;> (try split) <;> (try split) <;>
        first
          | rfl
          | exact ih _ _ _ _ _
    · rfl

theorem colorIndex_listModify {l : List BranchState} {i k : Nat} {f : BranchState → BranchState}
    (hf : ∀ b, (f b).colorIndex = b.colorIndex) :
    ((listModify l i f).get? k).map BranchState.colorIndex
      = (l.get? k).map BranchState.colorIndex := by
  by_cases hik : i = k
  · subst hik
    cases hg : l.get? i with
    | none =>
      unfold listModify
      rw [hg]
      simp
      exact List.get?_eq_none.mp hg
    | some a =>
      rw [listModify_get_eq f hg]
      simp [hf]
  · rw [listModify_get_ne f hik]

theorem normalWalk_colorIndex (bIdx : Nat) :
    ∀ (fuel : Nat) (st : LayoutState) (cursor : Nat) (pid : Option Int) (lp : Point)
      (i k : Nat),
      (((normalWalk bIdx fuel st cursor pid lp i).1.branches.get? k).map
          BranchState.colorIndex)
        = (st.branches.get? k).map BranchState.colorIndex := by
  intro fuel
  induction fuel with
  | zero => intro st cursor pid lp i k; rfl
  | succ fuel ih =>
    intro st cursor pid lp i k
    unfold normalWalk
    dsimp only
    split
    · split <;> (try split) <;> (try split) <;>
        first
          | exact colorIndex_listModify (fun b => rfl)
          | exact (ih _ _ _ _ _ _).trans (colorIndex_listModify (fun b => rfl))
    · rfl

theorem dpWalk_availableColors (st : LayoutState) (i : Nat) :
    (dpWalk st i).1.availableColors = (getAvailableColour i st.availableColors).2 := by
  unfold dpWalk
  rw [normalWalk_availableColors]
  rfl

theorem dpWalk_colorIndex (st : LayoutState) (i k : Nat) :
    ((dpWalk st i).1.branches.get? k).map BranchState.colorIndex
      = ((dpPre st i).branches.get? k).map BranchState.colorIndex := by
  unfold dpWalk
  exact normalWalk_colorIndex _ _ _ _ _ _ _ _

theorem dpPre_branch (st : LayoutState) (i : Nat) :
    (dpPre st i).branches.get? st.branches.length
      = some ⟨(getAvailableColour i st.availableColors).1, 0, []⟩ := by
  show (st.branches
      ++ [(⟨(getAvailableColour i st.availableColors).1, 0, []⟩ : BranchState)]).get?
      st.branches.length = _
  exact get_concat_length _ _

theorem dpFinish {stW : LayoutState} {bIdx colorIdx endI : Nat}
    (hci : (stW.branches.get? bIdx).map BranchState.colorIndex = some colorIdx)
    (hcl : colorIdx < stW.availableColors.length) :
    ∃ b, (listModify stW.branches bIdx (fun b => { b with endRow := endI })).get? bIdx
        = some b ∧
      b.colorIndex = colorIdx ∧
      (stW.availableColors.set colorIdx endI).get? b.colorIndex = some b.endRow := by
  obtain ⟨b0, hb0, hb0c⟩ := Option.map_eq_some'.mp hci
  refine ⟨{ b0 with endRow := endI }, listModify_get_eq _ hb0, hb0c, ?_⟩
  have hcix : ({ b0 with endRow := endI } : BranchState).colorIndex = colorIdx := hb0c
  rw [hcix]
  simp [List.get?_eq_getElem?, List.getElem?_set_self, hcl]

theorem dpNormal_branch_record (st : LayoutState) (i : Nat) :
    ∃ b, (dpNormal st i).branches.get? st.branches.length = some b ∧
      b.colorIndex = (getAvailableColour i st.availableColors).1 ∧
      (dpNormal st i).availableColors.get? b.colorIndex = some b.endRow := by
  have hci : ((dpWalk st i).1.branches.get? st.branches.length).map BranchState.colorIndex
      = some (getAvailableColour i st.availableColors).1 := by
    rw [dpWalk_colorIndex, dpPre_branch]
    rfl
  have hcl : (getAvailableColour i st.availableColors).1
      < (dpWalk st i).1.availableColors.length := by
    rw [dpWalk_availableColors]
    exact getAvailableColour_fst_lt i st.availableColors
  unfold dpNormal
  dsimp only
  split
  · exact dpFinish hci hcl
  · exact dpFinish hci hcl

theorem sweepStep_fresh {st : LayoutState} {i : Nat}
    (hb : (getVertex st i).onBranch = none) :
    ∃ b, (sweepStep st i).branches.get? st.branches.length = some b ∧
      b.endRow = i + 1 ∧
      (sweepStep st i).availableColors.get? b.colorIndex = some i := by
  unfold sweepStep
  dsimp only
  rw [if_pos hb]
  refine ⟨⟨(getAvailableColour i st.availableColors).1, i + 1, []⟩, ?_, rfl, ?_⟩
  · exact get_concat_length _ _
  · have hcl := getAvailableColour_fst_lt i st.availableColors
    simp only []
    show ((getAvailableColour i st.availableColors).2.set
        (getAvailableColour i st.availableColors).1 i).get?
        (getAvailableColour i st.availableColors).1 = some i
    simp [List.get?_eq_getElem?, List.getElem?_set_self, hcl]

theorem set_of_get?_eq {α : Type} : ∀ (l : List α) (i : Nat) (a : α),
    l.get? i = some a → l.set i a = l := by
  intro l
  induction l with
  | nil => intro i a h; cases h
  | cons x xs ih =>
    intro i a h
    cases i with
    | zero =>
      cases h
      rfl
    | succ n => exact congrArg (List.cons x) (ih n a h)

theorem colorEnds_set : ∀ (l : List BranchState) (i : Nat) (b : BranchState),
    colorEnds (l.set i b) = (colorEnds l).set i (b.colorIndex, b.endRow) := by
  intro l
  induction l with
  | nil => intro i b; rfl
  | cons x xs ih =>
    intro i b
    cases i with
    | zero => rfl
    | succ n => exact congrArg (List.cons _) (ih n b)

theorem set_concat_length {α : Type} : ∀ (l : List α) (a b : α),
    (l ++ [a]).set l.length b = l ++ [b] := by
  intro l a b
  induction l with
  | nil => rfl
  | cons x xs ih => exact congrArg (List.cons x) ih

theorem colorEnds_listModify_lines {l : List BranchState} {i : Nat}
    {f : BranchState → BranchState}
    (hf : ∀ b, (f b).colorIndex = b.colorIndex ∧ (f b).endRow = b.endRow) :
    colorEnds (listModify l i f) = colorEnds l := by
  unfold listModify
  cases hg : l.get? i with
  | none => rfl
  | some a =>
    rw [colorEnds_set, (hf a).1, (hf a).2]
    refine set_of_get?_eq _ _ _ ?_
    show (List.map (fun b => (b.colorIndex, b.endRow)) l).get? i = _
    rw [List.get?_map, hg]
    rfl

theorem mergeWalk_colorEnds (pidN bIdx : Nat) (vc : Bool) :
    ∀ (fuel : Nat) (st : LayoutState) (lp : Point) (i : Nat),
      colorEnds (mergeWalk pidN bIdx vc fuel st lp i).1.branches
        = colorEnds st.branches := by
  intro fuel
  induction fuel with
  | zero => intro st lp i; rfl
  | succ fuel ih =>
    intro st lp i
    unfold mergeWalk
    dsimp only
    split
    · split <;> (try split) <;> (try split) <;>
        first
          | exact colorEnds_listModify_lines (fun b => ⟨rfl, rfl⟩)
          | exact (ih _ _ _).trans (colorEnds_listModify_lines (fun b => ⟨rfl, rfl⟩))
    · rfl

theorem mergeWalk_availableColors (pidN bIdx : Nat) (vc : Bool) :
    ∀ (fuel : Nat) (st : LayoutState) (lp : Point) (i : Nat),
      (mergeWalk pidN bIdx vc fuel st lp i).1.availableColors
        = st.availableColors := by
  intro fuel
  induction fuel with
  | zero => intro st lp i; rfl
  | succ fuel ih =>
    intro st lp i
    unfold mergeWalk
    dsimp only
    split
    · split <;> (try split) <;> (try split) <;>
        first
          | rfl
          | exact ih _ _ _
    · rfl

theorem normalWalk_colorEnds (bIdx : Nat) :
    ∀ (fuel : Nat) (st : LayoutState) (cursor : Nat) (pid : Option Int) (lp : Point)
      (i : Nat),
      colorEnds (normalWalk bIdx fuel st cursor pid lp i).1.branches
        = colorEnds st.branches := by
  intro fuel
  induction fuel with
  | zero => intro st cursor pid lp i; rfl
  | succ fuel ih =>
    intro st cursor pid lp i
    unfold normalWalk
    dsimp only
    split
    · split <;> (try split) <;> (try split) <;>
        first
          | exact colorEnds_listModify_lines (fun b => ⟨rfl, rfl⟩)
          | exact (ih _ _ _ _ _).trans (colorEnds_listModify_lines (fun b => ⟨rfl, rfl⟩))
    · rfl

theorem dpMerge_colorEnds (st : LayoutState) (i : Nat) :
    colorEnds (dpMerge st i).branches = colorEnds st.branches := by
  unfold dpMerge
  dsimp only
  split
  · split
    · exact mergeWalk_colorEnds _ _ _ _ _ _ _
    · exact mergeWalk_colorEnds _ _ _ _ _ _ _
  · rfl

theorem dpMerge_availableColors (st : LayoutState) (i : Nat) :
    (dpMerge st i).availableColors = st.availableColors := by
  unfold dpMerge
  dsimp only
  split
  · split
    · exact mergeWalk_availableColors _ _ _ _ _ _ _
    · exact mergeWalk_availableColors _ _ _ _ _ _ _
  · rfl

theorem ColorInv_dpMerge {st : LayoutState} {i : Nat} (h : ColorInv st) :
    ColorInv (dpMerge st i) := by
  intro c e hce
  rw [dpMerge_colorEnds] at hce
  rw [dpMerge_availableColors]
  exact h c e hce

theorem dpWalk_colorEnds (st : LayoutState) (i : Nat) :
    colorEnds (dpWalk st i).1.branches
      = colorEnds st.branches ++ [((getAvailableColour i st.availableColors).1, 0)] := by
  unfold dpWalk
  rw [normalWalk_colorEnds]
  show colorEnds (st.branches
      ++ [(⟨(getAvailableColour i st.availableColors).1, 0, []⟩ : BranchState)]) = _
  unfold colorEnds
  rw [List.map_append]
  rfl

theorem dpNormal_availableColors (st : LayoutState) (i : Nat) :
    (dpNormal st i).availableColors
      = (getAvailableColour i st.availableColors).2.set
          (getAvailableColour i st.availableColors).1 (dpWalk st i).2.1 := by
  unfold dpNormal
  dsimp only
  split
  · exact congrArg
      (fun l : List Nat =>
        l.set (getAvailableColour i st.availableColors).1 (dpWalk st i).2.1)
      (dpWalk_availableColors st i)
  · exact congrArg
      (fun l : List Nat =>
        l.set (getAvailableColour i st.availableColors).1 (dpWalk st i).2.1)
      (dpWalk_availableColors st i)

theorem dpNormal_colorEnds (st : LayoutState) (i : Nat) :
    colorEnds (dpNormal st i).branches
      = colorEnds st.branches
          ++ [((getAvailableColour i st.availableColors).1, (dpWalk st i).2.1)] := by
  have hbl : (colorEnds st.branches).length = st.branches.length :=
    List.length_map _ _
  have hget : (colorEnds (dpWalk st i).1.branches).get? st.branches.length
      = some ((getAvailableColour i st.availableColors).1, 0) := by
    rw [dpWalk_colorEnds]
    exact hbl ▸ get_concat_length (colorEnds st.branches) _
  have hmap : ((dpWalk st i).1.branches.get? st.branches.length).map
      (fun b => (b.colorIndex, b.endRow))
      = some ((getAvailableColour i st.availableColors).1, 0) := by
    rw [← List.get?_map]
    exact hget
  obtain ⟨b0, hb0, hb0g⟩ := Option.map_eq_some'.mp hmap
  have hb0c : b0.colorIndex = (getAvailableColour i st.availableColors).1 :=
    congrArg Prod.fst hb0g
  have hcore : ∀ brs : List BranchState,
      brs = (dpWalk st i).1.branches →
      colorEnds (listModify brs st.branches.length
          (fun b => { b with endRow := (dpWalk st i).2.1 }))
        = colorEnds st.branches
            ++ [((getAvailableColour i st.availableColors).1, (dpWalk st i).2.1)] := by
    intro brs hbrs
    subst hbrs
    unfold listModify
    rw [hb0]
    rw [colorEnds_set]
    rw [dpWalk_colorEnds]
    have hset : ((colorEnds st.branches
        ++ [((getAvailableColour i st.availableColors).1, 0)]).set
          (colorEnds st.branches).length
          (({ b0 with endRow := (dpWalk st i).2.1 } : BranchState).colorIndex,
            ({ b0 with endRow := (dpWalk st i).2.1 } : BranchState).endRow))
        = colorEnds st.branches
            ++ [(({ b0 with endRow := (dpWalk st i).2.1 } : BranchState).colorIndex,
              ({ b0 with endRow := (dpWalk st i).2.1 } : BranchState).endRow)] :=
      set_concat_length _ _ _
    rw [hbl] at hset
    rw [hset, hb0c]
  unfold dpNormal
  dsimp only
  split
  · exact hcore _ rfl
  · exact hcore _ rfl

theorem lastEndFor_append_last (ce : List (Nat × Nat)) (cI e c : Nat) :
    lastEndFor (ce ++ [(cI, e)]) c
      = if c = cI then some e else lastEndFor ce c := by
  unfold lastEndFor
  rw [List.filter_append]
  by_cases hc : c = cI
  · subst hc
    rw [if_pos rfl]
    have hf : List.filter (fun p => decide (p.1 = c)) [((c : Nat), (e : Nat))]
        = [(c, e)] := by simp
    rw [hf, List.map_append]
    exact List.getLast?_concat _
  · rw [if_neg hc]
    have hf : List.filter (fun p => decide (p.1 = c)) [((cI : Nat), (e : Nat))]
        = [] := by simp [Ne.symm hc]
    rw [hf, List.append_nil]

theorem ColorInv_dpNormal {st : LayoutState} {i : Nat} (h : ColorInv st) :
    ColorInv (dpNormal st i) := by
  intro c e hce
  rw [dpNormal_availableColors]
  rw [dpNormal_colorEnds, lastEndFor_append_last] at hce
  by_cases hc : c = (getAvailableColour i st.availableColors).1
  · rw [if_pos hc] at hce
    cases hce
    subst hc
    have hlt := getAvailableColour_fst_lt i st.availableColors
    simp [List.get?_eq_getElem?, List.getElem?_set_self, hlt]
  · rw [if_neg hc] at hce
    have hac := h c e hce
    have hne : (getAvailableColour i st.availableColors).1 ≠ c := fun hh => hc hh.symm
    have hsk : ((getAvailableColour i st.availableColors).2.set
        (getAvailableColour i st.availableColors).1 (dpWalk st i).2.1).get? c
        = (getAvailableColour i st.availableColors).2.get? c := by
      simp [List.get?_eq_getElem?, List.getElem?_set_ne hne]
    rw [hsk]
    cases hg : gacFind i st.availableColors with
    | some k =>
      rw [getAvailableColour_some hg]
      exact hac
    | none =>
      rw [getAvailableColour_none hg]
      obtain ⟨hclt, -⟩ := List.get?_eq_some.mp hac
      show (st.availableColors ++ [0]).get? c = some e
      rw [List.get?_append hclt]
      exact hac

theorem ColorInv_determinePath {st : LayoutState} {i : Nat} (h : ColorInv st) :
    ColorInv (determinePath st i) := by
  unfold determinePath
  split
  · exact ColorInv_dpMerge h
  · exact ColorInv_dpNormal h

theorem ColorInv_layoutInit (input : List InputNode) (cur : Option String) :
    ColorInv (layoutInit input cur) := by
  intro c e hce
  exact Option.noConfusion hce

theorem ColorInv_mainLoop :
    ∀ (fuel : Nat) (st : LayoutState) (i : Nat), ColorInv st →
      ColorInv (mainLoop fuel st i) := by
  intro fuel
  induction fuel with
  | zero => exact fun st i h => h
  | succ fuel ih =>
    intro st i h
    unfold mainLoop
    dsimp only
    split
    · split
      · exact ih _ _ (ColorInv_determinePath h)
      · exact ih _ _ h
    · exact h

theorem mergeWalk_below (pidN bIdx : Nat) (vc : Bool) :
    ∀ (fuel : Nat) (st : LayoutState) (lp : Point) (i j : Nat), j < i →
      (mergeWalk pidN bIdx vc fuel st lp i).1.vertices.get? j
        = st.vertices.get? j := by
  intro fuel
  induction fuel with
  | zero => intro st lp i j hj; rfl
  | succ fuel ih =>
    intro st lp i j hj
    unfold mergeWalk
    dsimp only
    split
    · split <;> (try split) <;> (try split) <;>
        first
          | exact listModify_get_ne _ (Nat.ne_of_gt hj)
          | exact (ih _ _ _ j (Nat.lt_succ_of_lt hj)).trans
              (listModify_get_ne _ (Nat.ne_of_gt hj))
    · rfl

theorem normalWalk_below (bIdx : Nat) :
    ∀ (fuel : Nat) (st : LayoutState) (cursor : Nat) (pid : Option Int) (lp : Point)
      (i j : Nat), j < i → j < cursor →
      (normalWalk bIdx fuel st cursor pid lp i).1.vertices.get? j
          = st.vertices.get? j
        ∧ j < (normalWalk bIdx fuel st cursor pid lp i).2.2.1 := by
  intro fuel
  induction fuel with
  | zero => intro st cursor pid lp i j hj hc; exact ⟨rfl, hc⟩
  | succ fuel ih =>
    intro st cursor pid lp i j hj hc
    unfold normalWalk
    dsimp only
    split
    · split <;> (try split) <;> (try split) <;>
        first
          | exact ⟨(listModify_get_ne _ (Nat.ne_of_gt hj)).trans
              ((listModify_get_ne _ (Nat.ne_of_gt hc)).trans
                (listModify_get_ne _ (Nat.ne_of_gt hj))), hj⟩
          | exact ⟨((ih _ i _ _ (i + 1) j (Nat.lt_succ_of_lt hj) hj).1).trans
              ((listModify_get_ne _ (Nat.ne_of_gt hj)).trans
                ((listModify_get_ne _ (Nat.ne_of_gt hc)).trans
                  (listModify_get_ne _ (Nat.ne_of_gt hj)))),
              (ih _ i _ _ (i + 1) j (Nat.lt_succ_of_lt hj) hj).2⟩
          | exact ⟨((ih _ cursor _ _ (i + 1) j (Nat.lt_succ_of_lt hj) hc).1).trans
              (listModify_get_ne _ (Nat.ne_of_gt hj)),
              (ih _ cursor _ _ (i + 1) j (Nat.lt_succ_of_lt hj) hc).2⟩
    · exact ⟨rfl, hc⟩

theorem dpPre_below {st : LayoutState} {i j : Nat} (hj : j < i) :
    (dpPre st i).vertices.get? j = st.vertices.get? j :=
  (listModify_get_ne _ (Nat.ne_of_gt hj)).trans
    (listModify_get_ne _ (Nat.ne_of_gt hj))

theorem dpWalk_below (st : LayoutState) {i j : Nat} (hj : j < i) :
    (dpWalk st i).1.vertices.get? j = st.vertices.get? j
      ∧ j < (dpWalk st i).2.2.1 := by
  have h := normalWalk_below st.branches.length (dpPre st i).vertices.length
    (dpPre st i) i ((getVertex st i).getNextParent) (dpLastPoint st i) (i + 1) j
    (Nat.lt_succ_of_lt hj) hj
  exact ⟨h.1.trans (dpPre_below hj), h.2⟩

theorem dpMerge_below {st : LayoutState} {i j : Nat} (hj : j < i) :
    (dpMerge st i).vertices.get? j = st.vertices.get? j := by
  unfold dpMerge
  dsimp only
  split
  · split
    · exact (listModify_get_ne _ (Nat.ne_of_gt hj)).trans
        (mergeWalk_below _ _ _ _ _ _ _ j (Nat.lt_succ_of_lt hj))
    · exact mergeWalk_below _ _ _ _ _ _ _ j (Nat.lt_succ_of_lt hj)
  · rfl

theorem dpNormal_below {st : LayoutState} {i j : Nat} (hj : j < i) :
    (dpNormal st i).vertices.get? j = st.vertices.get? j := by
  have hw := dpWalk_below st hj
  unfold dpNormal
  dsimp only
  split
  · exact (listModify_get_ne _ (Nat.ne_of_gt hw.2)).trans hw.1
  · exact hw.1

theorem determinePath_below {st : LayoutState} {i j : Nat} (hj : j < i) :
    (determinePath st i).vertices.get? j = st.vertices.get? j := by
  unfold determinePath
  split
  · exact dpMerge_below hj
  · exact dpNormal_below hj

theorem rowDone_determinePath {st : LayoutState} {i j : Nat} (hj : j < i)
    (h : rowDone st j) : rowDone (determinePath st i) j := by
  have hv : getVertex (determinePath st i) j = getVertex st j := by
    unfold getVertex
    rw [determinePath_below hj]
  unfold rowDone at h ⊢
  rw [hv]
  exact h

theorem mainLoopO_eq_mainLoop :
    ∀ (fuel : Nat) (st : LayoutState) (i : Nat) (st2 : LayoutState),
      mainLoopO fuel st i = some st2 → mainLoop fuel st i = st2 := by
  intro fuel
  induction fuel with
  | zero => intro st i st2 h; cases h
  | succ fuel ih =>
    intro st i st2 h
    unfold mainLoopO at h
    unfold mainLoop
    dsimp only at h ⊢
    by_cases h1 : i < st.vertices.length
    · rw [if_pos h1] at h ⊢
      by_cases h2 : (getVertex st i).getNextParent ≠ none
          ∨ (getVertex st i).onBranch = none
      · rw [if_pos h2] at h ⊢
        exact ih _ _ _ h
      · rw [if_neg h2] at h ⊢
        exact ih _ _ _ h
    · rw [if_neg h1] at h ⊢
      cases h
      rfl

theorem mainLoopO_rows :
    ∀ (fuel : Nat) (st : LayoutState) (i : Nat) (st2 : LayoutState),
      mainLoopO fuel st i = some st2 →
      (∀ j, j < i → rowDone st j) →
      ∀ j, j < st2.vertices.length → rowDone st2 j := by
  intro fuel
  induction fuel with
  | zero => intro st i st2 h; cases h
  | succ fuel ih =>
    intro st i st2 h hpre
    unfold mainLoopO at h
    dsimp only at h
    by_cases h1 : i < st.vertices.length
    · rw [if_pos h1] at h
      by_cases h2 : (getVertex st i).getNextParent ≠ none
          ∨ (getVertex st i).onBranch = none
      · rw [if_pos h2] at h
        exact ih _ _ _ h (fun j hj => rowDone_determinePath hj (hpre j hj))
      · rw [if_neg h2] at h
        refine ih _ _ _ h (fun j hj => ?_)
        rcases Nat.lt_succ_iff_lt_or_eq.mp hj with hji | hje
        · exact hpre j hji
        · subst hje
          rcases not_or.mp h2 with ⟨h21, h22⟩
          exact ⟨not_not.mp h21, h22⟩
    · rw [if_neg h1] at h
      cases h
      intro j hj
      exact hpre j (Nat.lt_of_lt_of_le hj (Nat.le_of_not_lt h1))

theorem sweepStep_noop {st : LayoutState} {i : Nat}
    (h : (getVertex st i).onBranch ≠ none) : sweepStep st i = st := by
  unfold sweepStep
  dsimp only
  rw [if_neg h]

theorem sweepFrom_noop :
    ∀ (fuel : Nat) (st : LayoutState) (i : Nat),
      (∀ j, j < st.vertices.length → (getVertex st j).onBranch ≠ none) →
      sweepFrom fuel st i = st := by
  intro fuel
  induction fuel with
  | zero => intro st i _; rfl
  | succ fuel ih =>
    intro st i h
    unfold sweepFrom
    split
    · rename_i hi
      rw [sweepStep_noop (h i hi)]
      exact ih st (i + 1) h
    · rfl

/-- C3: color recycling.  `getAvailableColour` is first-fit: it hands
out the first slot whose recorded value lies strictly below `startAt`
and keeps the array, else appends a fresh slot.  The normal branch
creation site of `determinePath` records the new Branch with
`availableColors[colorIndex]` equal to that Branch's `end`; this
bookkeeping invariant holds initially and is preserved by every
`determinePath` call and by the outer loop, and under it a reused
color's latest holder satisfies `end < startAt` (strict).  Finally, on
every run where the source's outer `while` loop exits (`mainLoopO … =
some`, on which the fueled `mainLoop` agrees), every row ends bound
with no pending parent, so the completion sweep creates no Branch at
all — every Branch creation of a terminating run happens at the site
that maintains the invariant. -/
theorem c3_color_reuse :
    (∀ (startAt : Nat) (ac : List Nat) (i : Nat),
        gacFind startAt ac = some i →
          getAvailableColour startAt ac = (i, ac) ∧
          i < ac.length ∧ (∀ v, ac.get? i = some v → v < startAt) ∧
          (∀ k, k < i → ∀ v, ac.get? k = some v → startAt ≤ v)) ∧
    (∀ (startAt : Nat) (ac : List Nat),
        gacFind startAt ac = none →
          getAvailableColour startAt ac = (ac.length, ac ++ [0]) ∧
          (∀ k v, ac.get? k = some v → startAt ≤ v)) ∧
    (∀ (st : LayoutState) (i : Nat), isMergeContOf st i = false →
        ∃ b, (determinePath st i).branches.get? st.branches.length = some b ∧
          b.colorIndex = (getAvailableColour i st.availableColors).1 ∧
          (determinePath st i).availableColors.get? b.colorIndex = some b.endRow) ∧
    (∀ (input : List InputNode) (cur : Option String),
        ColorInv (layoutInit input cur)) ∧
    (∀ (st : LayoutState) (i : Nat), ColorInv st →
        ColorInv (determinePath st i)) ∧
    (∀ (fuel : Nat) (st : LayoutState) (i : Nat), ColorInv st →
        ColorInv (mainLoop fuel st i)) ∧
    (∀ (st : LayoutState) (s c e : Nat), ColorInv st →
        lastEndFor (colorEnds st.branches) c = some e →
        gacFind s st.availableColors = some c → e < s) ∧
    (∀ (fuel : Nat) (st st2 : LayoutState), mainLoopO fuel st 0 = some st2 →
        mainLoop fuel st 0 = st2 ∧
        (∀ j, j < st2.vertices.length → rowDone st2 j) ∧
        completionSweep st2 = st2) := by
  refine ⟨?_, ?_, ?_, ?_, ?_, ?_, ?_, ?_⟩
  · intro startAt ac i h
    exact ⟨getAvailableColour_some h, gacFind_spec startAt ac i h⟩
  · intro startAt ac h
    exact ⟨getAvailableColour_none h, gacFind_none startAt ac h⟩
  · intro st i hm
    have hd : determinePath st i = dpNormal st i := by
      unfold determinePath
      rw [if_neg]
      simp [hm]
    rw [hd]
    exact dpNormal_branch_record st i
  · exact fun input cur => ColorInv_layoutInit input cur
  · exact fun st i h => ColorInv_determinePath h
  · exact fun fuel st i h => ColorInv_mainLoop fuel st i h
  · intro st s c e hinv hlast hfind
    exact (gacFind_spec s st.availableColors c hfind).2.1 e (hinv c e hlast)
  · intro fuel st st2 h
    have hrows := mainLoopO_rows fuel st 0 st2 h
      (fun j hj => absurd hj (Nat.not_lt_zero j))
    exact ⟨mainLoopO_eq_mainLoop fuel st 0 st2 h, hrows,
      sweepFrom_noop _ _ _ (fun j hj => (hrows j hj).2)⟩

/-- C3 witness: first-fit on `[3, 1]` at `startAt = 2` picks slot 1;
the normal creation site on the linear input's initial state records
`availableColors[colorIndex] = end`; after that step the invariant
yields strict reuse of color 0 at row 3 (`2 < 3`); the invariant holds
after the full outer loop; and the 16-fuel run of the outer loop on the
linear input is a genuine loop exit, leaving every row settled and the
completion sweep the identity. -/
theorem c3_color_reuse_witness :
    (getAvailableColour 2 [3, 1] = (1, [3, 1]) ∧
      1 < 2 ∧ (∀ v, [3, 1].get? 1 = some v → v < 2) ∧
      (∀ k, k < 1 → ∀ v, [3, 1].get? k = some v → 2 ≤ v)) ∧
    (∃ b, (determinePath (layoutInit exLinearInput none) 0).branches.get?
          (layoutInit exLinearInput none).branches.length = some b ∧
        b.colorIndex
          = (getAvailableColour 0 (layoutInit exLinearInput none).availableColors).1 ∧
        (determinePath (layoutInit exLinearInput none) 0).availableColors.get?
          b.colorIndex = some b.endRow) ∧
    (2 : Nat) < 3 ∧
    ColorInv (mainLoop 16 (layoutInit exLinearInput none) 0) ∧
    (mainLoop 16 (layoutInit exLinearInput none) 0
        = mainLoop 16 (layoutInit exLinearInput none) 0 ∧
      (∀ j, j < (mainLoop 16 (layoutInit exLinearInput none) 0).vertices.length →
        rowDone (mainLoop 16 (layoutInit exLinearInput none) 0) j) ∧
      completionSweep (mainLoop 16 (layoutInit exLinearInput none) 0)
        = mainLoop 16 (layoutInit exLinearInput none) 0) :=
  ⟨c3_color_reuse.1 2 [3, 1] 1 (by decide),
   c3_color_reuse.2.2.1 (layoutInit exLinearInput none) 0 (by decide),
   c3_color_reuse.2.2.2.2.2.2.1 (determinePath (layoutInit exLinearInput none) 0)
     3 0 2
     (c3_color_reuse.2.2.2.2.1 (layoutInit exLinearInput none) 0
       (c3_color_reuse.2.2.2.1 exLinearInput none))
     (by decide) (by decide),
   c3_color_reuse.2.2.2.2.2.1 16 (layoutInit exLinearInput none) 0
     (c3_color_reuse.2.2.2.1 exLinearInput none),
   c3_color_reuse.2.2.2.2.2.2.2 16 (layoutInit exLinearInput none)
     (mainLoop 16 (layoutInit exLinearInput none) 0) (by decide)⟩

end GraphView
